import Mathlib

set_option maxRecDepth 10000

/-!
Verification development for the composable parsing-expression engine that the
pyparsing example grammars and unit tests in this repository are built on.
The engine itself is not part of the source tree (only its tests and example
grammars are), so the data model and the operations below are modelled from the
specification document; the concrete grammars and expected outcomes are
translated from src/simple_unit_tests.py and src/examples/excelExpr.py.
-/

namespace PyParse

/-- Modelled from the spec: the default insignificant whitespace characters
(space, tab, newline, carriage return), identified by character code. -/
def isWs (c : Char) : Bool :=
  c.toNat = 32 || c.toNat = 9 || c.toNat = 10 || c.toNat = 13

/-- Number of leading characters of a list satisfying a predicate. -/
def countWhile (p : Char → Bool) : List Char → Nat
  | [] => 0
  | c :: cs => if p c then countWhile p cs + 1 else 0

/-- Modelled from the spec: advance an offset over insignificant whitespace
before a primitive matcher attempts to consume input. -/
def skipWs (s : List Char) (loc : Nat) : Nat :=
  loc + countWhile isWs (s.drop loc)

/-- Exact prefix test: the first list is a prefix of the second. -/
def litStarts : List Char → List Char → Bool
  | [], _ => true
  | _ :: _, [] => false
  | a :: as, b :: bs => a == b && litStarts as bs

/-- ASCII lower-casing on character codes, used for caseless keyword matching. -/
def lowCode (c : Char) : Nat :=
  if 65 ≤ c.toNat ∧ c.toNat ≤ 90 then c.toNat + 32 else c.toNat

/-- Case-insensitive prefix test via `lowCode`. -/
def ciStarts : List Char → List Char → Bool
  | [], _ => true
  | _ :: _, [] => false
  | a :: as, b :: bs => lowCode a == lowCode b && ciStarts as bs

/-- ASCII decimal digit test by character code. -/
def isDigitC (c : Char) : Bool := 48 ≤ c.toNat && c.toNat ≤ 57

/-- ASCII letter test by character code. -/
def isAlphaC (c : Char) : Bool :=
  (65 ≤ c.toNat && c.toNat ≤ 90) || (97 ≤ c.toNat && c.toNat ≤ 122)

/-- Identifier characters used for keyword boundary checks
(letters, digits, underscore, dollar). -/
def isIdentC (c : Char) : Bool :=
  isAlphaC c || isDigitC c || c.toNat = 95 || c.toNat = 36

/-- Numeric value of a list of decimal digit characters. -/
def digitsVal (cs : List Char) : Nat :=
  cs.foldl (fun a c => a * 10 + (c.toNat - 48)) 0

/-- Modelled from the spec: a captured token value is a string, a number, or a
nested sequence produced by Group. -/
inductive Tok where
  | str (v : String)
  | num (v : Int)
  | group (sub : List Tok)

/-- Modelled from the spec: a ParseResult is an ordered sequence of captured
tokens plus named entries; a named entry is a view indexing into a position of
the ordered token sequence, not a separate copy. -/
structure PResult where
  toks : List Tok
  names : List (String × Nat)

/-- Concatenate two ParseResults; positions of named entries of the second are
shifted past the tokens of the first (names index into the merged sequence). -/
def PResult.app (a b : PResult) : PResult :=
  ⟨a.toks ++ b.toks, a.names ++ b.names.map (fun p => (p.1, p.2 + a.toks.length))⟩

/-- Attach a results name to a result: the name indexes the first token of the
result in the ordered token sequence. -/
def addName (n : String) (r : PResult) : PResult :=
  match r.toks with
  | [] => r
  | _ :: _ => ⟨r.toks, (n, 0) :: r.names⟩

/-- The ordered-sequence view of a ParseResult. -/
def PResult.asList (r : PResult) : List Tok := r.toks

/-- The named view of a ParseResult: each named entry is resolved by indexing
into the ordered token sequence. -/
def PResult.asDict (r : PResult) : List (String × Tok) :=
  r.names.map (fun p => (p.1, r.toks.getD p.2 (.str "")))

/-- Modelled from the spec: outcome of attempting a matcher: success with new
offset and result, a recoverable ParseFailure with offset and message, a fatal
failure escalated past a commit point, a grammar-configuration error distinct
from input-parsing failures, or fuel exhaustion of the interpreter. -/
inductive Outcome where
  | ok (l : Nat) (r : PResult)
  | err (l : Nat) (msg : String)
  | fatal (l : Nat) (msg : String)
  | confErr (msg : String)
  | noFuel

/-- Modelled from the spec: the parse-condition variants attached via
WithCondition; the repository tests use divisibility of the first token. -/
inductive Cond where
  | divisibleBy (d : Nat)
deriving DecidableEq

/-- Integer value of the first token of a result, reading digit strings as
numbers, as the condition callbacks in the tests do. -/
def firstTokVal : List Tok → Option Int
  | .num k :: _ => some k
  | .str w :: _ => some (Int.ofNat (digitsVal w.data))
  | _ => none

/-- Evaluate a parse condition on the tokens of a successful match. -/
def evalCond : Cond → List Tok → Bool
  | .divisibleBy d, ts =>
    match firstTokVal ts with
    | some v => v % (Int.ofNat d) == 0
    | none => false

/-- Modelled from the spec: the closed set of matcher variants composing the
grammar graph: literals, character-class words, numeric literals, caseless
keywords, sequence, committed sequence (commit point), ordered choice,
optional, bounded repetition, suppression, grouping, result naming, and parse
conditions. -/
inductive Matcher where
  | literal (lit : String)
  | word (initC bodyC : List Char) (mn : Nat) (mx : Option Nat)
  | intLit
  | caselessKeyword (kw : String)
  | andThen (a b : Matcher)
  | seqCut (a rest : Matcher)
  | orElse (a b : Matcher)
  | opt (c : Matcher)
  | rep (mn : Nat) (mx : Option Nat) (c : Matcher)
  | suppress (c : Matcher)
  | group (c : Matcher)
  | named (n : String) (c : Matcher)
  | withCond (cond : Cond) (c : Matcher)
deriving DecidableEq

/-- Modelled from the spec: a Literal skips whitespace, then consumes exactly
its string; on failure it reports a ParseFailure at the offset where whitespace
skipping stopped. -/
def litSem (lit : String) (s : List Char) (loc : Nat) : Outcome :=
  let l := skipWs s loc
  if litStarts lit.data (s.drop l) then .ok (l + lit.length) ⟨[.str lit], []⟩
  else .err l ("Expected " ++ lit)

/-- Modelled from the spec: a character-class Word skips whitespace, then
greedily consumes one initial-class character followed by body-class
characters, capped by the optional maximum; it fails when fewer than the
minimum (at least one) characters match. -/
def wordRaw (initC bodyC : List Char) : List Char → Nat
  | [] => 0
  | c :: cs => if initC.contains c then countWhile (fun d => bodyC.contains d) cs + 1 else 0

/-- Modelled from the spec: a Word as above, failing when fewer than the
minimum (and at least one) characters matched, capped by the maximum. -/
def wordSem (initC bodyC : List Char) (mn : Nat) (mx : Option Nat)
    (s : List Char) (loc : Nat) : Outcome :=
  let l := skipWs s loc
  let raw := wordRaw initC bodyC (s.drop l)
  let len := match mx with | none => raw | some k => min raw k
  if mn ≤ len ∧ 1 ≤ len then
    .ok (l + len) ⟨[.str (String.mk ((s.drop l).take len))], []⟩
  else .err l "Expected word"

/-- Modelled from the spec: an integer numeric literal skips whitespace, then
consumes one or more digits and captures the converted numeric value. -/
def intSem (s : List Char) (loc : Nat) : Outcome :=
  let l := skipWs s loc
  let n := countWhile isDigitC (s.drop l)
  if 1 ≤ n then .ok (l + n) ⟨[.num (Int.ofNat (digitsVal ((s.drop l).take n)))], []⟩
  else .err l "Expected integer"

/-- Modelled from the spec: a CaselessKeyword skips whitespace, matches its
keyword up to letter case with identifier-boundary checks on both sides, and
captures the keyword in its declared casing. -/
def kwSem (kw : String) (s : List Char) (loc : Nat) : Outcome :=
  let l := skipWs s loc
  let prevOk : Bool := l == 0 || !(isIdentC (s.getD (l - 1) (Char.ofNat 32)))
  let nextOk : Bool :=
    match s.drop (l + kw.length) with
    | [] => true
    | c :: _ => !(isIdentC c)
  if ciStarts kw.data (s.drop l) && prevOk && nextOk then
    .ok (l + kw.length) ⟨[.str kw], []⟩
  else .err l ("Expected keyword " ++ kw)

/-- Fold the second child of a Sequence into the first child's success. -/
def andCombine (r : PResult) : Outcome → Outcome
  | .ok l2 r2 => .ok l2 (r.app r2)
  | o => o

/-- Fold the committed rest of a Sequence into the part before the commit
point: a recoverable failure after the commit point escalates to fatal. -/
def cutCombine (r : PResult) : Outcome → Outcome
  | .ok l2 r2 => .ok l2 (r.app r2)
  | .err e msg => .fatal e msg
  | o => o

/-- Fold the second alternative of a Choice into the first alternative's
recoverable failure: report the furthest failure, first message on ties. -/
def orCombine (e1 : Nat) (m1 : String) : Outcome → Outcome
  | .err e2 m2 => if e1 < e2 then .err e2 m2 else .err e1 m1
  | o => o

/-- Optional: a recoverable child failure succeeds with zero consumption. -/
def optCombine (loc : Nat) : Outcome → Outcome
  | .ok l r => .ok l r
  | .err _ _ => .ok loc ⟨[], []⟩
  | o => o

/-- Suppression: a successful child contributes no tokens. -/
def supCombine : Outcome → Outcome
  | .ok l _ => .ok l ⟨[], []⟩
  | o => o

/-- Grouping: a successful child's tokens nest as one grouped sub-result. -/
def grpCombine : Outcome → Outcome
  | .ok l r => .ok l ⟨[.group r.toks], []⟩
  | o => o

/-- Result naming: name the child's successful result. -/
def nameCombine (n : String) : Outcome → Outcome
  | .ok l r => .ok l (addName n r)
  | o => o

/-- Parse condition: rejection by the condition is a recoverable match failure
at the matcher's position; acceptance never rewrites the tokens. -/
def condCombine (cond : Cond) (loc : Nat) : Outcome → Outcome
  | .ok l r => if evalCond cond r.toks then .ok l r else .err loc "Condition failed"
  | o => o

/-- Finish a repetition whose child failed recoverably: succeed when the
minimum count was already reached (here: is zero), else propagate. -/
def repErr (mn loc e : Nat) (msg : String) : Outcome :=
  if mn = 0 then .ok loc ⟨[], []⟩ else .err e msg

/-- Decrement an optional repetition bound. -/
def decrOpt : Option Nat → Option Nat
  | none => none
  | some k => some (k - 1)

/-- Modelled from the spec: the fuel-indexed interpreter of the matcher graph.
Each matcher consults no state but the input and offset; primitives skip
whitespace and consume input; Sequence threads offsets left to right; Choice
tries alternatives at the same offset in order and keeps the furthest failure;
repetition applies its child repeatedly and detects, at first use, a child
that succeeded while consuming zero characters (a configuration error
reported distinctly from a ParseFailure). `noFuel` is returned only when the
fuel budget is exhausted. -/
def matchF : Nat → Matcher → List Char → Nat → Outcome
  | 0, _, _, _ => .noFuel
  | _ + 1, .literal lit, s, loc => litSem lit s loc
  | _ + 1, .word i b mn mx, s, loc => wordSem i b mn mx s loc
  | _ + 1, .intLit, s, loc => intSem s loc
  | _ + 1, .caselessKeyword kw, s, loc => kwSem kw s loc
  | f + 1, .andThen a b, s, loc =>
    match matchF f a s loc with
    | .ok l r => andCombine r (matchF f b s l)
    | o => o
  | f + 1, .seqCut a rest, s, loc =>
    match matchF f a s loc with
    | .ok l r => cutCombine r (matchF f rest s l)
    | o => o
  | f + 1, .orElse a b, s, loc =>
    match matchF f a s loc with
    | .err e1 m1 => orCombine e1 m1 (matchF f b s loc)
    | o => o
  | f + 1, .opt c, s, loc => optCombine loc (matchF f c s loc)
  | f + 1, .rep mn mx c, s, loc =>
    match mx with
    | some 0 => repErr mn loc loc "Expected more repetitions"
    | _ =>
      match matchF f c s loc with
      | .ok l r =>
        if l ≤ loc then .confErr "repetition of an expression that can match an empty string"
        else
          match mx with
          | some 1 => .ok l r
          | _ => andCombine r (matchF f (.rep (mn - 1) (decrOpt mx) c) s l)
      | .err e msg => repErr mn loc e msg
      | o => o
  | f + 1, .suppress c, s, loc => supCombine (matchF f c s loc)
  | f + 1, .group c, s, loc => grpCombine (matchF f c s loc)
  | f + 1, .named n c, s, loc => nameCombine n (matchF f c s loc)
  | f + 1, .withCond cond c, s, loc => condCombine cond loc (matchF f c s loc)

/-- Structural size of a matcher, used to compute a fuel budget. -/
def Matcher.msize : Matcher → Nat
  | .literal _ => 1
  | .word _ _ _ _ => 1
  | .intLit => 1
  | .caselessKeyword _ => 1
  | .andThen a b => a.msize + b.msize + 1
  | .seqCut a rest => a.msize + rest.msize + 1
  | .orElse a b => a.msize + b.msize + 1
  | .opt c => c.msize + 1
  | .rep mn _ c => mn + c.msize + 1
  | .suppress c => c.msize + 1
  | .group c => c.msize + 1
  | .named _ c => c.msize + 1
  | .withCond _ c => c.msize + 1

/-- Fuel budget used by the top-level parse entry point; any budget large
enough to avoid `noFuel` yields the same outcome (fuel monotonicity). -/
def parseFuel (m : Matcher) (s : List Char) : Nat := (m.msize + 1) * (s.length + 2)

/-- Modelled from the spec: the top-level parse entry point. When `parseAll`
is set, the entire input (after trailing whitespace skip) must be consumed,
else the parse fails at the first unconsumed offset. -/
def parseString (m : Matcher) (text : String) (parseAll : Bool) : Outcome :=
  let s := text.data
  match matchF (parseFuel m s) m s 0 with
  | .ok l r =>
    if parseAll then
      let l2 := skipWs s l
      if l2 = s.length then .ok l2 r else .err l2 "Expected end of text"
    else .ok l r
  | o => o

/-- Result component of a success outcome (empty result otherwise). -/
def resOf : Outcome → PResult
  | .ok _ r => r
  | _ => ⟨[], []⟩

/-- The upper-case and lower-case ASCII letters (pyparsing `alphas`). -/
def alphaChars : List Char := "ABCDEFGHIJKLMNOPQRSTUVWXYZabcdefghijklmnopqrstuvwxyz".data

/-- The decimal digits (pyparsing `nums`). -/
def numChars : List Char := "0123456789".data

/-- Letters and digits (pyparsing `alphanums`). -/
def alphanumChars : List Char := alphaChars ++ numChars

/-- Modelled from the spec: Delimited is sequence-like: an item, then zero or
more of (delimiter, item), with the delimiter suppressed from the result. -/
def delimitedList (item delim : Matcher) : Matcher :=
  .andThen item (.rep 0 none (.andThen (.suppress delim) item))

/-- Modelled from the spec: one left-associative infix level of the
expression-precedence builder: the previous level's matcher as operand, then
one or more of (operator, operand), grouped as one flat chain
[left, op, right, op, right, ...]; with no operator present the bare operand
passes through ungrouped. -/
def leftAssocLevel (opM operand : Matcher) : Matcher :=
  .orElse (.group (.andThen operand (.rep 1 none (.andThen opM operand)))) operand

/-- The multiplicative operator alternatives of src/examples/excelExpr.py. -/
def multOp : Matcher := .orElse (.literal "*") (.literal "/")

/-- The additive operator alternatives of src/examples/excelExpr.py. -/
def addOp : Matcher := .orElse (.literal "+") (.literal "-")

/-- The two-level arithmetic expression builder of src/examples/excelExpr.py
restricted to integer operands: `*`,`/` bind tighter than `+`,`-`, both levels
left-associative. -/
def arithExpr : Matcher := leftAssocLevel addOp (leftAssocLevel multOp .intLit)

/-- The named-results grammar of the claim:
Word(alphas)("key") + Suppress("=") + Integer("value"). -/
def namedGrammar : Matcher :=
  .andThen (.andThen (.named "key" (.word alphaChars alphanumChars 1 none))
                     (.suppress (.literal "=")))
           (.named "value" .intLit)

/-- The parse-condition grammar of src/simple_unit_tests.py (TestParseCondition):
OneOrMore(Word(nums) restricted to multiples of 7). -/
def mult7Grammar : Matcher :=
  .rep 1 none (.withCond (.divisibleBy 7) (.word numChars numChars 1 none))

/-- The committed prefix of the conditional-function grammar of
src/examples/excelExpr.py: CaselessKeyword("if") - LPAR. -/
def ifM : Matcher := .seqCut (.caselessKeyword "if") (.suppress (.literal "("))

/-- A grammar whose deepest attempted partial match is inside a backtracked
Optional: Optional(Literal("a") + Literal("b")) + Literal("c"). -/
def cexG : Matcher := .andThen (.opt (.andThen (.literal "a") (.literal "b"))) (.literal "c")

/-- A small backtracking choice grammar used to exercise the packrat cache. -/
def abGrammar : Matcher := .orElse (.literal "ab") (.andThen (.literal "a") (.literal "b"))

/-- Apply a binary arithmetic operator named by its token text. -/
def applyOp (op : String) (a b : Int) : Int :=
  if op = "*" then a * b
  else if op = "/" then a / b
  else if op = "+" then a + b
  else a - b

/-- Left-to-right evaluation of a token chain [v, op, v, op, v, ...] as the
declared left associativity prescribes, descending into grouped sub-chains;
fuel-indexed to recurse through nested groups. -/
def evalL : Nat → Int → List Tok → Int
  | 0, acc, _ => acc
  | _ + 1, acc, [] => acc
  | f + 1, _, .num v :: rest => evalL f v rest
  | f + 1, _, .group ts :: rest => evalL f (evalL f 0 ts) rest
  | f + 1, acc, .str op :: .num v :: rest => evalL f (applyOp op acc v) rest
  | f + 1, acc, .str op :: .group ts :: rest => evalL f (applyOp op acc (evalL f 0 ts)) rest
  | f + 1, acc, .str _ :: rest => evalL f acc rest

/-- Arithmetic value of one token (number or grouped chain). -/
def evalTok (f : Nat) (t : Tok) : Int := evalL f 0 [t]

/-- Failure offset raised by an outcome, zero otherwise. -/
def failOff : Outcome → Nat
  | .err e _ => e
  | _ => 0

/-- The maximum offset over all ParseFailures raised anywhere in the
interpreter's call tree for the given matcher at the given position,
including failures of alternatives and of backtracked attempts that an
enclosing combinator caught. Mirrors the control flow of `matchF`: a
sub-matcher contributes exactly when `matchF` attempts it. -/
def deepF : Nat → Matcher → List Char → Nat → Nat
  | 0, _, _, _ => 0
  | _ + 1, .literal lit, s, loc => failOff (litSem lit s loc)
  | _ + 1, .word i b mn mx, s, loc => failOff (wordSem i b mn mx s loc)
  | _ + 1, .intLit, s, loc => failOff (intSem s loc)
  | _ + 1, .caselessKeyword kw, s, loc => failOff (kwSem kw s loc)
  | f + 1, .andThen a b, s, loc =>
    match matchF f a s loc with
    | .ok l _ => max (deepF f a s loc) (deepF f b s l)
    | _ => deepF f a s loc
  | f + 1, .seqCut a rest, s, loc =>
    match matchF f a s loc with
    | .ok l _ => max (deepF f a s loc) (deepF f rest s l)
    | _ => deepF f a s loc
  | f + 1, .orElse a b, s, loc =>
    match matchF f a s loc with
    | .err _ _ => max (deepF f a s loc) (deepF f b s loc)
    | _ => deepF f a s loc
  | f + 1, .opt c, s, loc => deepF f c s loc
  | f + 1, .rep mn mx c, s, loc =>
    match mx with
    | some 0 => 0
    | _ =>
      match matchF f c s loc with
      | .ok l _ =>
        if l ≤ loc then deepF f c s loc
        else
          match mx with
          | some 1 => deepF f c s loc
          | _ => max (deepF f c s loc) (deepF f (.rep (mn - 1) (decrOpt mx) c) s l)
      | _ => deepF f c s loc
  | f + 1, .suppress c, s, loc => deepF f c s loc
  | f + 1, .group c, s, loc => deepF f c s loc
  | f + 1, .named _ c, s, loc => deepF f c s loc
  | f + 1, .withCond cond c, s, loc =>
    match matchF f c s loc with
    | .ok _ r => if evalCond cond r.toks then deepF f c s loc else max (deepF f c s loc) loc
    | _ => deepF f c s loc

/-- Modelled from the spec: a packrat cache maps (matcher identity, start
offset) to the memoized outcome; its lifecycle is scoped to one top-level
parse session. -/
abbrev Cache : Type := List ((Matcher × Nat) × Outcome)

/-- Look up a cache key. -/
def cacheFind : Cache → Matcher × Nat → Option Outcome
  | [], _ => none
  | (k', o) :: rest, k => if k' = k then some o else cacheFind rest k

/-- Store a computed outcome in the session cache under (matcher, offset);
fuel-exhaustion pseudo-outcomes are not stored. -/
def cacheStore (m : Matcher) (loc : Nat) : Outcome × Cache → Outcome × Cache
  | (.noFuel, κ2) => (.noFuel, κ2)
  | (o, κ2) => (o, ((m, loc), o) :: κ2)

/-- Modelled from the spec: the packrat-cached interpreter. Before executing a
matcher at an offset it looks up (matcher, offset) in the session cache; on a
hit it returns the cached outcome without re-executing; on a miss it executes
(recursively through the cache) and stores the outcome before returning.
Fuel-exhaustion outcomes are never stored. -/
def matchCF : Nat → Matcher → List Char → Nat → Cache → Outcome × Cache
  | 0, _, _, _, κ => (.noFuel, κ)
  | f + 1, m, s, loc, κ =>
    match cacheFind κ (m, loc) with
    | some o => (o, κ)
    | none =>
      let p : Outcome × Cache :=
        match m with
        | .literal lit => (litSem lit s loc, κ)
        | .word i b mn mx => (wordSem i b mn mx s loc, κ)
        | .intLit => (intSem s loc, κ)
        | .caselessKeyword kw => (kwSem kw s loc, κ)
        | .andThen a b =>
          match matchCF f a s loc κ with
          | (.ok l r, κ1) =>
            let q := matchCF f b s l κ1
            (andCombine r q.1, q.2)
          | other => other
        | .seqCut a rest =>
          match matchCF f a s loc κ with
          | (.ok l r, κ1) =>
            let q := matchCF f rest s l κ1
            (cutCombine r q.1, q.2)
          | other => other
        | .orElse a b =>
          match matchCF f a s loc κ with
          | (.err e1 m1, κ1) =>
            let q := matchCF f b s loc κ1
            (orCombine e1 m1 q.1, q.2)
          | other => other
        | .opt c =>
          let q := matchCF f c s loc κ
          (optCombine loc q.1, q.2)
        | .rep mn mx c =>
          match mx with
          | some 0 => (repErr mn loc loc "Expected more repetitions", κ)
          | _ =>
            match matchCF f c s loc κ with
            | (.ok l r, κ1) =>
              if l ≤ loc then
                (.confErr "repetition of an expression that can match an empty string", κ1)
              else
                match mx with
                | some 1 => (.ok l r, κ1)
                | _ =>
                  let q := matchCF f (.rep (mn - 1) (decrOpt mx) c) s l κ1
                  (andCombine r q.1, q.2)
            | (.err e msg, κ1) => (repErr mn loc e msg, κ1)
            | other => other
        | .suppress c =>
          let q := matchCF f c s loc κ
          (supCombine q.1, q.2)
        | .group c =>
          let q := matchCF f c s loc κ
          (grpCombine q.1, q.2)
        | .named n c =>
          let q := matchCF f c s loc κ
          (nameCombine n q.1, q.2)
        | .withCond cond c =>
          let q := matchCF f c s loc κ
          (condCombine cond loc q.1, q.2)
      cacheStore m loc p

/-- The matcher computes the given outcome: some fuel budget suffices to
produce it. By fuel monotonicity the outcome is unique, so this is the
(partial-function) semantics of the matcher at the given position. -/
def Computes (m : Matcher) (s : List Char) (loc : Nat) (o : Outcome) : Prop :=
  o ≠ .noFuel ∧ ∃ f, matchF f m s loc = o

/-- A session cache is valid for an input when every stored entry is the
outcome the stored matcher computes at the stored offset. -/
def CacheOK (s : List Char) (κ : Cache) : Prop :=
  ∀ k o, cacheFind κ k = some o → Computes k.1 s k.2 o

/-- From the given position the child matcher succeeds exactly `k` times,
producing one token and consuming at least one character per occurrence,
ends at `endL` where it fails recoverably, and emits the listed tokens. This
captures an input region consisting of exactly `k` occurrences of a token
matched by the child. -/
inductive RepsOne (c : Matcher) (s : List Char) : Nat → Nat → List Tok → Nat → Prop where
  | stop (loc e : Nat) (msg : String) :
      Computes c s loc (.err e msg) → RepsOne c s loc loc [] 0
  | step (loc l endL : Nat) (t : Tok) (nm : List (String × Nat)) (ts : List Tok) (k : Nat) :
      Computes c s loc (.ok l ⟨[t], nm⟩) → loc < l →
      RepsOne c s l endL ts k → RepsOne c s loc endL (t :: ts) (k + 1)

/-- One (delimiter, item) tail element of a Delimited list, with the
delimiter suppressed. -/
def pairM (item delim : Matcher) : Matcher := .andThen (.suppress delim) item

/-- Whether a string begins with an insignificant-whitespace character. -/
def startsWithWs (t : String) : Bool :=
  match t.data with
  | [] => false
  | c :: _ => isWs c

/-- Whether every character of the string is an ASCII letter or digit. -/
def allAlnum (t : String) : Bool := t.data.all (fun c => isAlphaC c || isDigitC c)

/-- Equality of strings up to ASCII letter case. -/
def lowerEq (a b : String) : Bool := a.data.map lowCode == b.data.map lowCode

theorem countWhile_le (p : Char → Bool) (cs : List Char) : countWhile p cs ≤ cs.length := by
  induction cs with
  | nil => simp [countWhile]
  | cons c cs ih => simp only [countWhile, List.length_cons]; split <;> omega

theorem wordRaw_le (i b : List Char) (cs : List Char) : wordRaw i b cs ≤ cs.length := by
  cases cs with
  | nil => simp [wordRaw]
  | cons c cs =>
    simp only [wordRaw, List.length_cons]
    have := countWhile_le (fun d => b.contains d) cs
    split <;> omega

theorem litStarts_length : ∀ a b : List Char, litStarts a b = true → a.length ≤ b.length := by
  intro a
  induction a with
  | nil => intro b _; simp
  | cons x xs ih =>
    intro b h
    cases b with
    | nil => simp [litStarts] at h
    | cons y ys =>
      simp only [litStarts, Bool.and_eq_true] at h
      have := ih ys h.2
      simp only [List.length_cons]
      omega

theorem ciStarts_length : ∀ a b : List Char, ciStarts a b = true → a.length ≤ b.length := by
  intro a
  induction a with
  | nil => intro b _; simp
  | cons x xs ih =>
    intro b h
    cases b with
    | nil => simp [ciStarts] at h
    | cons y ys =>
      simp only [ciStarts, Bool.and_eq_true] at h
      have := ih ys h.2
      simp only [List.length_cons]
      omega

theorem litStarts_append (a t : List Char) : litStarts a (a ++ t) = true := by
  induction a with
  | nil => simp [litStarts]
  | cons x xs ih => simp [litStarts, ih]

theorem skipWs_ge (s : List Char) (loc : Nat) : loc ≤ skipWs s loc :=
  Nat.le_add_right _ _

theorem skipWs_sub_le (s : List Char) (loc : Nat) :
    countWhile isWs (s.drop loc) ≤ s.length - loc := by
  have h := countWhile_le isWs (s.drop loc)
  simpa using h

theorem skipWs_le' (s : List Char) (loc : Nat) : skipWs s loc ≤ loc + (s.length - loc) := by
  have := skipWs_sub_le s loc
  simp only [skipWs]
  omega

theorem drop_len_skip (s : List Char) (loc : Nat) :
    (s.drop (skipWs s loc)).length = s.length - skipWs s loc := by simp

theorem litSem_ok_bounds {lit : String} {s : List Char} {loc l : Nat} {r : PResult}
    (h : litSem lit s loc = .ok l r) : loc ≤ l ∧ (l ≤ s.length ∨ l ≤ loc) := by
  simp only [litSem] at h
  split at h
  case isTrue hp =>
    cases h
    have f1 := skipWs_ge s loc
    have f2 := skipWs_le' s loc
    have h3 := litStarts_length _ _ hp
    rw [drop_len_skip s loc] at h3
    have h5 : lit.length = lit.data.length := rfl
    omega
  case isFalse => exact absurd h (by simp)

theorem wordSem_ok_bounds {i b : List Char} {mn : Nat} {mx : Option Nat}
    {s : List Char} {loc l : Nat} {r : PResult}
    (h : wordSem i b mn mx s loc = .ok l r) : loc ≤ l ∧ (l ≤ s.length ∨ l ≤ loc) := by
  have f1 := skipWs_ge s loc
  have f2 := skipWs_le' s loc
  have h2 := wordRaw_le i b (s.drop (skipWs s loc))
  rw [drop_len_skip s loc] at h2
  cases mx with
  | none =>
    simp only [wordSem] at h
    split at h
    case isTrue hp => cases h; omega
    case isFalse => exact absurd h (by simp)
  | some k =>
    simp only [wordSem] at h
    split at h
    case isTrue hp =>
      cases h
      have h6 := Nat.min_le_left (wordRaw i b (s.drop (skipWs s loc))) k
      omega
    case isFalse => exact absurd h (by simp)

theorem intSem_ok_bounds {s : List Char} {loc l : Nat} {r : PResult}
    (h : intSem s loc = .ok l r) : loc ≤ l ∧ (l ≤ s.length ∨ l ≤ loc) := by
  simp only [intSem] at h
  split at h
  case isTrue hp =>
    cases h
    have f1 := skipWs_ge s loc
    have f2 := skipWs_le' s loc
    have h2 := countWhile_le isDigitC (s.drop (skipWs s loc))
    rw [drop_len_skip s loc] at h2
    omega
  case isFalse => exact absurd h (by simp)

theorem kwSem_ok_bounds {kw : String} {s : List Char} {loc l : Nat} {r : PResult}
    (h : kwSem kw s loc = .ok l r) : loc ≤ l ∧ (l ≤ s.length ∨ l ≤ loc) := by
  simp only [kwSem] at h
  split at h
  case isTrue hp =>
    cases h
    simp only [Bool.and_eq_true] at hp
    have f1 := skipWs_ge s loc
    have f2 := skipWs_le' s loc
    have h3 := ciStarts_length _ _ hp.1.1
    rw [drop_len_skip s loc] at h3
    have h5 : kw.length = kw.data.length := rfl
    omega
  case isFalse => exact absurd h (by simp)

theorem andCombine_noFuel {r : PResult} {o : Outcome} :
    andCombine r o = .noFuel ↔ o = .noFuel := by
  cases o <;> simp [andCombine]

theorem cutCombine_noFuel {r : PResult} {o : Outcome} :
    cutCombine r o = .noFuel ↔ o = .noFuel := by
  cases o <;> simp [cutCombine]

theorem orCombine_noFuel {e1 : Nat} {m1 : String} {o : Outcome} :
    orCombine e1 m1 o = .noFuel ↔ o = .noFuel := by
  cases o <;> simp [orCombine]
  split <;> simp

theorem optCombine_noFuel {loc : Nat} {o : Outcome} :
    optCombine loc o = .noFuel ↔ o = .noFuel := by
  cases o <;> simp [optCombine]

theorem supCombine_noFuel {o : Outcome} : supCombine o = .noFuel ↔ o = .noFuel := by
  cases o <;> simp [supCombine]

theorem grpCombine_noFuel {o : Outcome} : grpCombine o = .noFuel ↔ o = .noFuel := by
  cases o <;> simp [grpCombine]

theorem nameCombine_noFuel {n : String} {o : Outcome} :
    nameCombine n o = .noFuel ↔ o = .noFuel := by
  cases o <;> simp [nameCombine]

theorem condCombine_noFuel {cond : Cond} {loc : Nat} {o : Outcome} :
    condCombine cond loc o = .noFuel ↔ o = .noFuel := by
  cases o <;> simp [condCombine]
  split <;> simp

theorem repErr_noFuel {mn loc e : Nat} {msg : String} : repErr mn loc e msg ≠ .noFuel := by
  simp only [repErr]; split <;> simp

theorem litSem_noFuel {lit : String} {s : List Char} {loc : Nat} :
    litSem lit s loc ≠ .noFuel := by
  simp only [litSem]; split <;> simp

theorem wordSem_noFuel {i b : List Char} {mn : Nat} {mx : Option Nat}
    {s : List Char} {loc : Nat} : wordSem i b mn mx s loc ≠ .noFuel := by
  simp only [wordSem]; split <;> simp

theorem intSem_noFuel {s : List Char} {loc : Nat} : intSem s loc ≠ .noFuel := by
  simp only [intSem]; split <;> simp

theorem kwSem_noFuel {kw : String} {s : List Char} {loc : Nat} :
    kwSem kw s loc ≠ .noFuel := by
  simp only [kwSem]; split <;> simp

/-- A successful match never moves the offset backwards, and never past the
end of the input unless it started there. -/
theorem matchF_ok_bounds :
    ∀ (f : Nat) (m : Matcher) (s : List Char) (loc l : Nat) (r : PResult),
      matchF f m s loc = .ok l r → loc ≤ l ∧ (l ≤ s.length ∨ l ≤ loc) := by
  intro f
  induction f with
  | zero => intro m s loc l r h; exact absurd h (by simp [matchF])
  | succ f ih =>
    intro m s loc l r h
    cases m with
    | literal lit => exact litSem_ok_bounds h
    | word i b mn mx => exact wordSem_ok_bounds h
    | intLit => exact intSem_ok_bounds h
    | caselessKeyword kw => exact kwSem_ok_bounds h
    | andThen a b =>
      simp only [matchF] at h
      cases ha : matchF f a s loc <;> rw [ha] at h <;> simp only [] at h
      case ok l1 r1 =>
        cases hb : matchF f b s l1 <;> rw [hb] at h <;> simp only [andCombine] at h
        case ok l2 r2 =>
          cases h
          have i1 := ih a s loc l1 r1 ha
          have i2 := ih b s l1 _ _ hb
          omega
        all_goals exact absurd h (by simp)
      all_goals exact absurd h (by simp)
    | seqCut a rest =>
      simp only [matchF] at h
      cases ha : matchF f a s loc <;> rw [ha] at h <;> simp only [] at h
      case ok l1 r1 =>
        cases hb : matchF f rest s l1 <;> rw [hb] at h <;> simp only [cutCombine] at h
        case ok l2 r2 =>
          cases h
          have i1 := ih a s loc l1 r1 ha
          have i2 := ih rest s l1 _ _ hb
          omega
        all_goals exact absurd h (by simp)
      all_goals exact absurd h (by simp)
    | orElse a b =>
      simp only [matchF] at h
      cases ha : matchF f a s loc <;> rw [ha] at h <;> simp only [] at h
      case ok l1 r1 =>
        cases h
        exact ih a s loc l r ha
      case err e1 m1 =>
        cases hb : matchF f b s loc <;> rw [hb] at h <;> simp only [orCombine] at h
        case ok l2 r2 =>
          cases h
          exact ih b s loc l r hb
        case err e2 m2 => split at h <;> exact absurd h (by simp)
        all_goals exact absurd h (by simp)
      all_goals exact absurd h (by simp)
    | opt c =>
      simp only [matchF] at h
      cases hc : matchF f c s loc <;> rw [hc] at h <;> simp only [optCombine] at h
      case ok l1 r1 =>
        cases h
        exact ih c s loc l r hc
      case err e1 m1 => cases h; omega
      all_goals exact absurd h (by simp)
    | rep mn mx c =>
      have hRE : ∀ mn' loc' e' msg', repErr mn' loc' e' msg' = Outcome.ok l r →
          loc' = l := by
        intro mn' loc' e' msg' hre
        simp only [repErr] at hre
        split at hre
        · cases hre; rfl
        · exact absurd hre (by simp)
      rcases hmx : mx with - | k
      · simp only [matchF, hmx] at h
        cases hc : matchF f c s loc <;> rw [hc] at h <;> simp only [] at h
        case ok l1 r1 =>
          split at h
          · exact absurd h (by simp)
          · cases hrest : matchF f (.rep (mn - 1) (decrOpt none) c) s l1 <;>
              rw [hrest] at h <;> simp only [andCombine] at h
            case ok l2 r2 =>
              cases h
              have i1 := ih c s loc l1 r1 hc
              have i2 := ih _ s l1 _ _ hrest
              omega
            all_goals exact absurd h (by simp)
        case err e1 m1 =>
          have := hRE _ _ _ _ h
          omega
        all_goals exact absurd h (by simp)
      · rcases k with - | k
        · simp only [matchF, hmx] at h
          have := hRE _ _ _ _ h
          omega
        · rcases k with - | k
          · simp only [matchF, hmx] at h
            cases hc : matchF f c s loc <;> rw [hc] at h <;> simp only [] at h
            case ok l1 r1 =>
              split at h
              · exact absurd h (by simp)
              · cases h
                exact ih c s loc l r hc
            case err e1 m1 =>
              have := hRE _ _ _ _ h
              omega
            all_goals exact absurd h (by simp)
          · simp only [matchF, hmx] at h
            cases hc : matchF f c s loc <;> rw [hc] at h <;> simp only [] at h
            case ok l1 r1 =>
              split at h
              · exact absurd h (by simp)
              · cases hrest : matchF f (.rep (mn - 1) (decrOpt (some (k + 2))) c) s l1 <;>
                  rw [hrest] at h <;> simp only [andCombine] at h
                case ok l2 r2 =>
                  cases h
                  have i1 := ih c s loc l1 r1 hc
                  have i2 := ih _ s l1 _ _ hrest
                  omega
                all_goals exact absurd h (by simp)
            case err e1 m1 =>
              have := hRE _ _ _ _ h
              omega
            all_goals exact absurd h (by simp)
    | suppress c =>
      simp only [matchF] at h
      cases hc : matchF f c s loc <;> rw [hc] at h <;> simp only [supCombine] at h
      case ok l1 r1 =>
        cases h
        exact ih c s loc _ _ hc
      all_goals exact absurd h (by simp)
    | group c =>
      simp only [matchF] at h
      cases hc : matchF f c s loc <;> rw [hc] at h <;> simp only [grpCombine] at h
      case ok l1 r1 =>
        cases h
        exact ih c s loc _ _ hc
      all_goals exact absurd h (by simp)
    | named n c =>
      simp only [matchF] at h
      cases hc : matchF f c s loc <;> rw [hc] at h <;> simp only [nameCombine] at h
      case ok l1 r1 =>
        cases h
        exact ih c s loc _ _ hc
      all_goals exact absurd h (by simp)
    | withCond cond c =>
      simp only [matchF] at h
      cases hc : matchF f c s loc <;> rw [hc] at h <;> simp only [condCombine] at h
      case ok l1 r1 =>
        split at h
        · cases h
          exact ih c s loc l r hc
        · exact absurd h (by simp)
      all_goals exact absurd h (by simp)

/-- Fuel monotonicity: once the interpreter completes within some fuel budget,
any larger budget produces the same outcome. -/
theorem matchF_mono :
    ∀ (f g : Nat) (m : Matcher) (s : List Char) (loc : Nat), f ≤ g →
      matchF f m s loc ≠ .noFuel → matchF g m s loc = matchF f m s loc := by
  intro f
  induction f with
  | zero => intro g m s loc _ hne; exact absurd rfl hne
  | succ f ih =>
    intro g m s loc hle hne
    obtain ⟨g, rfl⟩ : ∃ g', g = g' + 1 := ⟨g - 1, by omega⟩
    have hle' : f ≤ g := by omega
    cases m with
    | literal lit => rfl
    | word i b mn mx => rfl
    | intLit => rfl
    | caselessKeyword kw => rfl
    | andThen a b =>
      simp only [matchF] at hne ⊢
      cases ha : matchF f a s loc with
      | noFuel => rw [ha] at hne; exact absurd rfl hne
      | ok l1 r1 =>
        rw [ih g a s loc hle' (by simp [ha])]
        simp only [ha] at hne ⊢
        cases hb : matchF f b s l1 with
        | noFuel => rw [hb] at hne; exact absurd rfl hne
        | ok l2 r2 => rw [ih g b s l1 hle' (by simp [hb]), hb]
        | err e2 m2 => rw [ih g b s l1 hle' (by simp [hb]), hb]
        | fatal e2 m2 => rw [ih g b s l1 hle' (by simp [hb]), hb]
        | confErr m2 => rw [ih g b s l1 hle' (by simp [hb]), hb]
      | err e1 m1 => rw [ih g a s loc hle' (by simp [ha]), ha]
      | fatal e1 m1 => rw [ih g a s loc hle' (by simp [ha]), ha]
      | confErr m1 => rw [ih g a s loc hle' (by simp [ha]), ha]
    | seqCut a rest =>
      simp only [matchF] at hne ⊢
      cases ha : matchF f a s loc with
      | noFuel => rw [ha] at hne; exact absurd rfl hne
      | ok l1 r1 =>
        rw [ih g a s loc hle' (by simp [ha])]
        simp only [ha] at hne ⊢
        cases hb : matchF f rest s l1 with
        | noFuel => rw [hb] at hne; exact absurd rfl hne
        | ok l2 r2 => rw [ih g rest s l1 hle' (by simp [hb]), hb]
        | err e2 m2 => rw [ih g rest s l1 hle' (by simp [hb]), hb]
        | fatal e2 m2 => rw [ih g rest s l1 hle' (by simp [hb]), hb]
        | confErr m2 => rw [ih g rest s l1 hle' (by simp [hb]), hb]
      | err e1 m1 => rw [ih g a s loc hle' (by simp [ha]), ha]
      | fatal e1 m1 => rw [ih g a s loc hle' (by simp [ha]), ha]
      | confErr m1 => rw [ih g a s loc hle' (by simp [ha]), ha]
    | orElse a b =>
      simp only [matchF] at hne ⊢
      cases ha : matchF f a s loc with
      | noFuel => rw [ha] at hne; exact absurd rfl hne
      | err e1 m1 =>
        rw [ih g a s loc hle' (by simp [ha])]
        simp only [ha] at hne ⊢
        cases hb : matchF f b s loc with
        | noFuel => rw [hb] at hne; exact absurd rfl hne
        | ok l2 r2 => rw [ih g b s loc hle' (by simp [hb]), hb]
        | err e2 m2 => rw [ih g b s loc hle' (by simp [hb]), hb]
        | fatal e2 m2 => rw [ih g b s loc hle' (by simp [hb]), hb]
        | confErr m2 => rw [ih g b s loc hle' (by simp [hb]), hb]
      | ok l1 r1 => rw [ih g a s loc hle' (by simp [ha]), ha]
      | fatal e1 m1 => rw [ih g a s loc hle' (by simp [ha]), ha]
      | confErr m1 => rw [ih g a s loc hle' (by simp [ha]), ha]
    | opt c =>
      simp only [matchF] at hne ⊢
      have hnc : matchF f c s loc ≠ .noFuel := fun hc => hne (optCombine_noFuel.mpr hc)
      rw [ih g c s loc hle' hnc]
    | rep mn mx c =>
      match mx with
      | none =>
        simp only [matchF] at hne ⊢
        cases hc : matchF f c s loc with
        | noFuel => rw [hc] at hne; exact absurd rfl hne
        | ok l1 r1 =>
          rw [ih g c s loc hle' (by simp [hc])]
          simp only [hc] at hne ⊢
          by_cases hll : l1 ≤ loc
          · simp [hll]
          · simp only [hll, if_false] at hne ⊢
            cases hrest : matchF f (Matcher.rep (mn - 1) (decrOpt none) c) s l1 with
            | noFuel => rw [hrest] at hne; exact absurd rfl hne
            | ok l2 r2 => rw [ih g _ s l1 hle' (by simp [hrest]), hrest]
            | err e2 m2 => rw [ih g _ s l1 hle' (by simp [hrest]), hrest]
            | fatal e2 m2 => rw [ih g _ s l1 hle' (by simp [hrest]), hrest]
            | confErr m2 => rw [ih g _ s l1 hle' (by simp [hrest]), hrest]
        | err e1 m1 => rw [ih g c s loc hle' (by simp [hc]), hc]
        | fatal e1 m1 => rw [ih g c s loc hle' (by simp [hc]), hc]
        | confErr m1 => rw [ih g c s loc hle' (by simp [hc]), hc]
      | some 0 => rfl
      | some 1 =>
        simp only [matchF] at hne ⊢
        cases hc : matchF f c s loc with
        | noFuel => rw [hc] at hne; exact absurd rfl hne
        | ok l1 r1 => rw [ih g c s loc hle' (by simp [hc]), hc]
        | err e1 m1 => rw [ih g c s loc hle' (by simp [hc]), hc]
        | fatal e1 m1 => rw [ih g c s loc hle' (by simp [hc]), hc]
        | confErr m1 => rw [ih g c s loc hle' (by simp [hc]), hc]
      | some (k + 2) =>
        simp only [matchF] at hne ⊢
        cases hc : matchF f c s loc with
        | noFuel => rw [hc] at hne; exact absurd rfl hne
        | ok l1 r1 =>
          rw [ih g c s loc hle' (by simp [hc])]
          simp only [hc] at hne ⊢
          by_cases hll : l1 ≤ loc
          · simp [hll]
          · simp only [hll, if_false] at hne ⊢
            cases hrest : matchF f
                (Matcher.rep (mn - 1) (decrOpt (some (k + 2))) c) s l1 with
            | noFuel => rw [hrest] at hne; exact absurd rfl hne
            | ok l2 r2 => rw [ih g _ s l1 hle' (by simp [hrest]), hrest]
            | err e2 m2 => rw [ih g _ s l1 hle' (by simp [hrest]), hrest]
            | fatal e2 m2 => rw [ih g _ s l1 hle' (by simp [hrest]), hrest]
            | confErr m2 => rw [ih g _ s l1 hle' (by simp [hrest]), hrest]
        | err e1 m1 => rw [ih g c s loc hle' (by simp [hc]), hc]
        | fatal e1 m1 => rw [ih g c s loc hle' (by simp [hc]), hc]
        | confErr m1 => rw [ih g c s loc hle' (by simp [hc]), hc]
    | suppress c =>
      simp only [matchF] at hne ⊢
      have hnc : matchF f c s loc ≠ .noFuel := fun hc => hne (supCombine_noFuel.mpr hc)
      rw [ih g c s loc hle' hnc]
    | group c =>
      simp only [matchF] at hne ⊢
      have hnc : matchF f c s loc ≠ .noFuel := fun hc => hne (grpCombine_noFuel.mpr hc)
      rw [ih g c s loc hle' hnc]
    | named n c =>
      simp only [matchF] at hne ⊢
      have hnc : matchF f c s loc ≠ .noFuel := fun hc => hne (nameCombine_noFuel.mpr hc)
      rw [ih g c s loc hle' hnc]
    | withCond cond c =>
      simp only [matchF] at hne ⊢
      have hnc : matchF f c s loc ≠ .noFuel := fun hc => hne (condCombine_noFuel.mpr hc)
      rw [ih g c s loc hle' hnc]

/-- Any sufficient fuel budget can be enlarged without changing the outcome. -/
theorem matchF_stable {f g : Nat} {m : Matcher} {s : List Char} {loc : Nat} {o : Outcome}
    (h : matchF f m s loc = o) (hne : o ≠ .noFuel) (hle : f ≤ g) :
    matchF g m s loc = o := by
  rw [matchF_mono f g m s loc hle (by rw [h]; exact hne)]
  exact h

/-- The outcome a matcher computes at a position is unique. -/
theorem Computes.det {m : Matcher} {s : List Char} {loc : Nat} {o1 o2 : Outcome}
    (h1 : Computes m s loc o1) (h2 : Computes m s loc o2) : o1 = o2 := by
  obtain ⟨hn1, f1, e1⟩ := h1
  obtain ⟨hn2, f2, e2⟩ := h2
  have s1 := matchF_stable e1 hn1 (Nat.le_max_left f1 f2)
  have s2 := matchF_stable e2 hn2 (Nat.le_max_right f1 f2)
  rw [← s1, ← s2]

theorem Computes.ok_bounds {m : Matcher} {s : List Char} {loc l : Nat} {r : PResult}
    (h : Computes m s loc (.ok l r)) : loc ≤ l ∧ (l ≤ s.length ∨ l ≤ loc) := by
  obtain ⟨-, f, e⟩ := h
  exact matchF_ok_bounds f m s loc l r e

theorem Computes.prim {m : Matcher} {s : List Char} {loc : Nat} {o : Outcome}
    (hne : o ≠ .noFuel) (h : matchF 1 m s loc = o) : Computes m s loc o := ⟨hne, 1, h⟩

theorem Computes.seq {a b : Matcher} {s : List Char} {loc l : Nat} {r : PResult} {o : Outcome}
    (h1 : Computes a s loc (.ok l r)) (h2 : Computes b s l o) :
    Computes (.andThen a b) s loc (andCombine r o) := by
  obtain ⟨-, f1, e1⟩ := h1
  obtain ⟨hn2, f2, e2⟩ := h2
  refine ⟨fun hh => hn2 (andCombine_noFuel.mp hh), max f1 f2 + 1, ?_⟩
  simp only [matchF, matchF_stable e1 (by simp) (Nat.le_max_left f1 f2),
    matchF_stable e2 hn2 (Nat.le_max_right f1 f2)]

theorem Computes.seqSkip {a : Matcher} (b : Matcher) {s : List Char} {loc : Nat} {o : Outcome}
    (h1 : Computes a s loc o) (hno : ∀ l r, o ≠ .ok l r) :
    Computes (.andThen a b) s loc o := by
  obtain ⟨hn1, f1, e1⟩ := h1
  refine ⟨hn1, f1 + 1, ?_⟩
  simp only [matchF, e1]

theorem Computes.cut {a rest : Matcher} {s : List Char} {loc l : Nat} {r : PResult} {o : Outcome}
    (h1 : Computes a s loc (.ok l r)) (h2 : Computes rest s l o) :
    Computes (.seqCut a rest) s loc (cutCombine r o) := by
  obtain ⟨-, f1, e1⟩ := h1
  obtain ⟨hn2, f2, e2⟩ := h2
  refine ⟨fun hh => hn2 (cutCombine_noFuel.mp hh), max f1 f2 + 1, ?_⟩
  simp only [matchF, matchF_stable e1 (by simp) (Nat.le_max_left f1 f2),
    matchF_stable e2 hn2 (Nat.le_max_right f1 f2)]

theorem Computes.cutSkip {a : Matcher} (rest : Matcher) {s : List Char} {loc : Nat} {o : Outcome}
    (h1 : Computes a s loc o) (hno : ∀ l r, o ≠ .ok l r) :
    Computes (.seqCut a rest) s loc o := by
  obtain ⟨hn1, f1, e1⟩ := h1
  refine ⟨hn1, f1 + 1, ?_⟩
  simp only [matchF, e1]

theorem Computes.orBoth {a b : Matcher} {s : List Char} {loc e1 : Nat} {m1 : String}
    {o : Outcome} (h1 : Computes a s loc (.err e1 m1)) (h2 : Computes b s loc o) :
    Computes (.orElse a b) s loc (orCombine e1 m1 o) := by
  obtain ⟨-, f1, e1h⟩ := h1
  obtain ⟨hn2, f2, e2h⟩ := h2
  refine ⟨fun hh => hn2 (orCombine_noFuel.mp hh), max f1 f2 + 1, ?_⟩
  simp only [matchF, matchF_stable e1h (by simp) (Nat.le_max_left f1 f2),
    matchF_stable e2h hn2 (Nat.le_max_right f1 f2)]

theorem Computes.orFirst {a : Matcher} (b : Matcher) {s : List Char} {loc : Nat} {o : Outcome}
    (h1 : Computes a s loc o) (hno : ∀ e m, o ≠ .err e m) :
    Computes (.orElse a b) s loc o := by
  obtain ⟨hn1, f1, e1⟩ := h1
  refine ⟨hn1, f1 + 1, ?_⟩
  simp only [matchF, e1]

theorem Computes.optC {c : Matcher} {s : List Char} {loc : Nat} {o : Outcome}
    (h : Computes c s loc o) : Computes (.opt c) s loc (optCombine loc o) := by
  obtain ⟨hn, f, e⟩ := h
  exact ⟨fun hh => hn (optCombine_noFuel.mp hh), f + 1, by simp only [matchF, e]⟩

theorem Computes.supC {c : Matcher} {s : List Char} {loc : Nat} {o : Outcome}
    (h : Computes c s loc o) : Computes (.suppress c) s loc (supCombine o) := by
  obtain ⟨hn, f, e⟩ := h
  exact ⟨fun hh => hn (supCombine_noFuel.mp hh), f + 1, by simp only [matchF, e]⟩

theorem Computes.grpC {c : Matcher} {s : List Char} {loc : Nat} {o : Outcome}
    (h : Computes c s loc o) : Computes (.group c) s loc (grpCombine o) := by
  obtain ⟨hn, f, e⟩ := h
  exact ⟨fun hh => hn (grpCombine_noFuel.mp hh), f + 1, by simp only [matchF, e]⟩

theorem Computes.nameC {n : String} {c : Matcher} {s : List Char} {loc : Nat} {o : Outcome}
    (h : Computes c s loc o) : Computes (.named n c) s loc (nameCombine n o) := by
  obtain ⟨hn, f, e⟩ := h
  exact ⟨fun hh => hn (nameCombine_noFuel.mp hh), f + 1, by simp only [matchF, e]⟩

theorem Computes.condC {cond : Cond} {c : Matcher} {s : List Char} {loc : Nat} {o : Outcome}
    (h : Computes c s loc o) : Computes (.withCond cond c) s loc (condCombine cond loc o) := by
  obtain ⟨hn, f, e⟩ := h
  exact ⟨fun hh => hn (condCombine_noFuel.mp hh), f + 1, by simp only [matchF, e]⟩

theorem Computes.repMax0 {mn : Nat} (c : Matcher) (s : List Char) (loc : Nat) :
    Computes (.rep mn (some 0) c) s loc (repErr mn loc loc "Expected more repetitions") :=
  ⟨repErr_noFuel, 1, by simp only [matchF]⟩

theorem Computes.repChildErr (mn : Nat) (mx : Option Nat) {c : Matcher} {s : List Char}
    {loc e : Nat} {msg : String} (hmx : mx ≠ some 0)
    (h : Computes c s loc (.err e msg)) :
    Computes (.rep mn mx c) s loc (repErr mn loc e msg) := by
  obtain ⟨-, f, eh⟩ := h
  refine ⟨repErr_noFuel, f + 1, ?_⟩
  match mx with
  | none => simp only [matchF, eh]
  | some 0 => exact absurd rfl hmx
  | some 1 => simp only [matchF, eh]
  | some (k + 2) => simp only [matchF, eh]

theorem Computes.repChildEmpty {mn : Nat} {mx : Option Nat} {c : Matcher} {s : List Char}
    {loc l : Nat} {r : PResult} (hmx : mx ≠ some 0)
    (h : Computes c s loc (.ok l r)) (hll : l ≤ loc) :
    Computes (.rep mn mx c) s loc
      (.confErr "repetition of an expression that can match an empty string") := by
  obtain ⟨-, f, eh⟩ := h
  refine ⟨by simp, f + 1, ?_⟩
  match mx with
  | none => simp only [matchF, eh]; simp [hll]
  | some 0 => exact absurd rfl hmx
  | some 1 => simp only [matchF, eh]; simp [hll]
  | some (k + 2) => simp only [matchF, eh]; simp [hll]

theorem Computes.repLast {mn : Nat} {c : Matcher} {s : List Char} {loc l : Nat} {r : PResult}
    (h : Computes c s loc (.ok l r)) (hll : loc < l) :
    Computes (.rep mn (some 1) c) s loc (.ok l r) := by
  obtain ⟨-, f, eh⟩ := h
  refine ⟨by simp, f + 1, ?_⟩
  simp only [matchF, eh]
  simp [Nat.not_le_of_lt hll]

theorem Computes.repCont (mn : Nat) (mx : Option Nat) {c : Matcher} {s : List Char}
    {loc l : Nat} {r : PResult} {o : Outcome} (hmx0 : mx ≠ some 0) (hmx1 : mx ≠ some 1)
    (h1 : Computes c s loc (.ok l r)) (hll : loc < l)
    (h2 : Computes (.rep (mn - 1) (decrOpt mx) c) s l o) :
    Computes (.rep mn mx c) s loc (andCombine r o) := by
  obtain ⟨-, f1, e1⟩ := h1
  obtain ⟨hn2, f2, e2⟩ := h2
  refine ⟨fun hh => hn2 (andCombine_noFuel.mp hh), max f1 f2 + 1, ?_⟩
  have s1 := matchF_stable e1 (by simp) (Nat.le_max_left f1 f2)
  have s2 := matchF_stable e2 hn2 (Nat.le_max_right f1 f2)
  match mx with
  | none =>
    simp only [matchF, s1, s2]
    simp [Nat.not_le_of_lt hll]
  | some 0 => exact absurd rfl hmx0
  | some 1 => exact absurd rfl hmx1
  | some (k + 2) =>
    simp only [matchF, s1, s2]
    simp [Nat.not_le_of_lt hll]

theorem Computes.repChildOther {mn : Nat} {mx : Option Nat} {c : Matcher} {s : List Char}
    {loc : Nat} {o : Outcome} (hmx : mx ≠ some 0) (h : Computes c s loc o)
    (hno : ∀ l r, o ≠ .ok l r) (hne : ∀ e m, o ≠ .err e m) :
    Computes (.rep mn mx c) s loc o := by
  obtain ⟨hn1, f, eh⟩ := h
  refine ⟨hn1, f + 1, ?_⟩
  match mx with
  | none =>
    simp only [matchF, eh]
  | some 0 => exact absurd rfl hmx
  | some 1 =>
    simp only [matchF, eh]
  | some (k + 2) =>
    simp only [matchF, eh]

theorem matchF_total_aux (s : List Char) :
    ∀ n : Nat, ∀ rem : Nat, ∀ (m : Matcher) (loc : Nat), m.msize ≤ n →
      s.length + 1 - loc ≤ rem → ∃ o, Computes m s loc o := by
  intro n
  induction n using Nat.strong_induction_on with
  | _ n ihn =>
    intro rem
    induction rem using Nat.strong_induction_on with
    | _ rem ihrem =>
      intro m loc hn hrem
      cases m with
      | literal lit => exact ⟨litSem lit s loc, litSem_noFuel, 1, rfl⟩
      | word i b mn mx => exact ⟨wordSem i b mn mx s loc, wordSem_noFuel, 1, rfl⟩
      | intLit => exact ⟨intSem s loc, intSem_noFuel, 1, rfl⟩
      | caselessKeyword kw => exact ⟨kwSem kw s loc, kwSem_noFuel, 1, rfl⟩
      | andThen a b =>
        simp only [Matcher.msize] at hn
        obtain ⟨oa, ha⟩ := ihn a.msize (by omega) (s.length + 1 - loc) a loc (le_refl _) (le_refl _)
        cases oa with
        | noFuel => exact absurd rfl ha.1
        | ok l r =>
          obtain ⟨ob, hb⟩ := ihn b.msize (by omega) (s.length + 1 - l) b l (le_refl _) (le_refl _)
          exact ⟨_, Computes.seq ha hb⟩
        | err e m => exact ⟨_, Computes.seqSkip b ha (fun _ _ h => Outcome.noConfusion h)⟩
        | fatal e m => exact ⟨_, Computes.seqSkip b ha (fun _ _ h => Outcome.noConfusion h)⟩
        | confErr m => exact ⟨_, Computes.seqSkip b ha (fun _ _ h => Outcome.noConfusion h)⟩
      | seqCut a rest =>
        simp only [Matcher.msize] at hn
        obtain ⟨oa, ha⟩ := ihn a.msize (by omega) (s.length + 1 - loc) a loc (le_refl _) (le_refl _)
        cases oa with
        | noFuel => exact absurd rfl ha.1
        | ok l r =>
          obtain ⟨ob, hb⟩ := ihn rest.msize (by omega) (s.length + 1 - l) rest l (le_refl _) (le_refl _)
          exact ⟨_, Computes.cut ha hb⟩
        | err e m => exact ⟨_, Computes.cutSkip rest ha (fun _ _ h => Outcome.noConfusion h)⟩
        | fatal e m => exact ⟨_, Computes.cutSkip rest ha (fun _ _ h => Outcome.noConfusion h)⟩
        | confErr m => exact ⟨_, Computes.cutSkip rest ha (fun _ _ h => Outcome.noConfusion h)⟩
      | orElse a b =>
        simp only [Matcher.msize] at hn
        obtain ⟨oa, ha⟩ := ihn a.msize (by omega) (s.length + 1 - loc) a loc (le_refl _) (le_refl _)
        cases oa with
        | noFuel => exact absurd rfl ha.1
        | err e1 m1 =>
          obtain ⟨ob, hb⟩ := ihn b.msize (by omega) (s.length + 1 - loc) b loc (le_refl _) (le_refl _)
          exact ⟨_, Computes.orBoth ha hb⟩
        | ok l r => exact ⟨_, Computes.orFirst b ha (fun _ _ h => Outcome.noConfusion h)⟩
        | fatal e m => exact ⟨_, Computes.orFirst b ha (fun _ _ h => Outcome.noConfusion h)⟩
        | confErr m => exact ⟨_, Computes.orFirst b ha (fun _ _ h => Outcome.noConfusion h)⟩
      | opt c =>
        simp only [Matcher.msize] at hn
        obtain ⟨oc, hc⟩ := ihn c.msize (by omega) (s.length + 1 - loc) c loc (le_refl _) (le_refl _)
        exact ⟨_, Computes.optC hc⟩
      | suppress c =>
        simp only [Matcher.msize] at hn
        obtain ⟨oc, hc⟩ := ihn c.msize (by omega) (s.length + 1 - loc) c loc (le_refl _) (le_refl _)
        exact ⟨_, Computes.supC hc⟩
      | group c =>
        simp only [Matcher.msize] at hn
        obtain ⟨oc, hc⟩ := ihn c.msize (by omega) (s.length + 1 - loc) c loc (le_refl _) (le_refl _)
        exact ⟨_, Computes.grpC hc⟩
      | named nm c =>
        simp only [Matcher.msize] at hn
        obtain ⟨oc, hc⟩ := ihn c.msize (by omega) (s.length + 1 - loc) c loc (le_refl _) (le_refl _)
        exact ⟨_, Computes.nameC hc⟩
      | withCond cond c =>
        simp only [Matcher.msize] at hn
        obtain ⟨oc, hc⟩ := ihn c.msize (by omega) (s.length + 1 - loc) c loc (le_refl _) (le_refl _)
        exact ⟨_, Computes.condC hc⟩
      | rep mn mx c =>
        simp only [Matcher.msize] at hn
        obtain ⟨oc, hc⟩ := ihn c.msize (by omega) (s.length + 1 - loc) c loc (le_refl _) (le_refl _)
        match mx with
        | some 0 => exact ⟨_, Computes.repMax0 c s loc⟩
        | none =>
          cases oc with
          | noFuel => exact absurd rfl hc.1
          | err e msg => exact ⟨_, Computes.repChildErr _ _ (by simp) hc⟩
          | fatal e msg =>
            exact ⟨_, Computes.repChildOther (by simp) hc
              (fun _ _ h => Outcome.noConfusion h) (fun _ _ h => Outcome.noConfusion h)⟩
          | confErr msg =>
            exact ⟨_, Computes.repChildOther (by simp) hc
              (fun _ _ h => Outcome.noConfusion h) (fun _ _ h => Outcome.noConfusion h)⟩
          | ok l r =>
            by_cases hll : l ≤ loc
            · exact ⟨_, Computes.repChildEmpty (by simp) hc hll⟩
            · have hlt : loc < l := Nat.lt_of_not_le hll
              have hb := hc.ok_bounds
              have hlen : l ≤ s.length := by omega
              obtain ⟨or1, hr⟩ := ihrem (s.length + 1 - l) (by omega)
                (.rep (mn - 1) (decrOpt none) c) l (by simp [Matcher.msize, decrOpt]; omega)
                (le_refl _)
              exact ⟨_, Computes.repCont _ _ (by simp) (by simp) hc hlt hr⟩
        | some (k + 1) =>
          cases oc with
          | noFuel => exact absurd rfl hc.1
          | err e msg => exact ⟨_, Computes.repChildErr _ _ (by simp) hc⟩
          | fatal e msg =>
            exact ⟨_, Computes.repChildOther (by simp) hc
              (fun _ _ h => Outcome.noConfusion h) (fun _ _ h => Outcome.noConfusion h)⟩
          | confErr msg =>
            exact ⟨_, Computes.repChildOther (by simp) hc
              (fun _ _ h => Outcome.noConfusion h) (fun _ _ h => Outcome.noConfusion h)⟩
          | ok l r =>
            by_cases hll : l ≤ loc
            · exact ⟨_, Computes.repChildEmpty (by simp) hc hll⟩
            · have hlt : loc < l := Nat.lt_of_not_le hll
              have hb := hc.ok_bounds
              have hlen : l ≤ s.length := by omega
              match k with
              | 0 => exact ⟨_, Computes.repLast hc hlt⟩
              | k + 1 =>
                obtain ⟨or1, hr⟩ := ihrem (s.length + 1 - l) (by omega)
                  (.rep (mn - 1) (decrOpt (some (k + 2))) c) l
                  (by simp [Matcher.msize, decrOpt]; omega) (le_refl _)
                exact ⟨_, Computes.repCont _ _ (by simp) (by simp) hc hlt hr⟩

/-- Every matcher computes some outcome at every position: some fuel budget
suffices, so every parse invocation terminates with a definite outcome. -/
theorem matchF_total (m : Matcher) (s : List Char) (loc : Nat) :
    ∃ o, Computes m s loc o :=
  matchF_total_aux s m.msize (s.length + 1 - loc) m loc (le_refl _) (le_refl _)

theorem reps_length {c : Matcher} {s : List Char} :
    ∀ {loc endL : Nat} {ts : List Tok} {k : Nat}, RepsOne c s loc endL ts k →
      ts.length = k := by
  intro loc endL ts k h
  induction h with
  | stop loc e msg hc => rfl
  | step loc l endL t nm ts k hc hlt hsub ih => simp [ih]

theorem reps_rep0 {c : Matcher} {s : List Char} :
    ∀ {loc endL : Nat} {ts : List Tok} {k : Nat}, RepsOne c s loc endL ts k →
      ∃ r : PResult, Computes (.rep 0 none c) s loc (.ok endL r) ∧ r.toks = ts := by
  intro loc endL ts k h
  induction h with
  | stop loc e msg hc =>
    refine ⟨⟨[], []⟩, ?_, rfl⟩
    have h2 := Computes.repChildErr 0 none (by simp) hc
    simpa [repErr] using h2
  | step loc l endL t nm ts k hc hlt hsub ih =>
    obtain ⟨r2, hr2, htoks⟩ := ih
    refine ⟨PResult.app ⟨[t], nm⟩ r2, ?_, by simp [PResult.app, htoks]⟩
    exact Computes.repCont 0 none (by simp) (by simp) hc hlt hr2

theorem CacheOK.nil (s : List Char) : CacheOK s [] := by
  intro k o h
  simp [cacheFind] at h

theorem CacheOK.cons {s : List Char} {κ : Cache} {m : Matcher} {loc : Nat} {o : Outcome}
    (hκ : CacheOK s κ) (hc : Computes m s loc o) : CacheOK s (((m, loc), o) :: κ) := by
  intro k o' hfind
  simp only [cacheFind] at hfind
  split at hfind
  · rename_i heq
    cases hfind
    cases heq
    exact hc
  · exact hκ k o' hfind

theorem cacheStore_sound {s : List Char} {m : Matcher} {loc : Nat} {p : Outcome × Cache}
    (hC : CacheOK s p.2) (hS : p.1 ≠ .noFuel → Computes m s loc p.1) :
    CacheOK s (cacheStore m loc p).2 ∧
    ((cacheStore m loc p).1 ≠ .noFuel → Computes m s loc (cacheStore m loc p).1) := by
  obtain ⟨o, κ2⟩ := p
  cases o with
  | noFuel => exact ⟨hC, fun h => absurd rfl h⟩
  | ok l r => exact ⟨CacheOK.cons hC (hS (by simp)), fun _ => hS (by simp)⟩
  | err e m1 => exact ⟨CacheOK.cons hC (hS (by simp)), fun _ => hS (by simp)⟩
  | fatal e m1 => exact ⟨CacheOK.cons hC (hS (by simp)), fun _ => hS (by simp)⟩
  | confErr m1 => exact ⟨CacheOK.cons hC (hS (by simp)), fun _ => hS (by simp)⟩

/-- Soundness of the packrat-cached interpreter: starting from a valid session
cache, the cache stays valid and any completed outcome is the outcome the
matcher computes, whether it was served from a cache hit or executed. -/
theorem matchCF_sound (s : List Char) :
    ∀ (f : Nat) (m : Matcher) (loc : Nat) (κ : Cache), CacheOK s κ →
      CacheOK s (matchCF f m s loc κ).2 ∧
      ((matchCF f m s loc κ).1 ≠ .noFuel →
        Computes m s loc (matchCF f m s loc κ).1) := by
  intro f
  induction f with
  | zero => intro m loc κ hκ; exact ⟨hκ, fun h => absurd rfl h⟩
  | succ f ih =>
    intro m loc κ hκ
    cases hfind : cacheFind κ (m, loc) with
    | some o =>
      have hres : matchCF (f + 1) m s loc κ = (o, κ) := by
        simp only [matchCF, hfind]
      rw [hres]
      exact ⟨hκ, fun _ => hκ (m, loc) o hfind⟩
    | none =>
      cases m with
      | literal lit =>
        have hres : matchCF (f + 1) (.literal lit) s loc κ =
            cacheStore (.literal lit) loc (litSem lit s loc, κ) := by
          simp only [matchCF, hfind]
        rw [hres]
        exact cacheStore_sound hκ (fun _ => ⟨litSem_noFuel, 1, rfl⟩)
      | word i b mn mx =>
        have hres : matchCF (f + 1) (.word i b mn mx) s loc κ =
            cacheStore (.word i b mn mx) loc (wordSem i b mn mx s loc, κ) := by
          simp only [matchCF, hfind]
        rw [hres]
        exact cacheStore_sound hκ (fun _ => ⟨wordSem_noFuel, 1, rfl⟩)
      | intLit =>
        have hres : matchCF (f + 1) .intLit s loc κ =
            cacheStore .intLit loc (intSem s loc, κ) := by
          simp only [matchCF, hfind]
        rw [hres]
        exact cacheStore_sound hκ (fun _ => ⟨intSem_noFuel, 1, rfl⟩)
      | caselessKeyword kw =>
        have hres : matchCF (f + 1) (.caselessKeyword kw) s loc κ =
            cacheStore (.caselessKeyword kw) loc (kwSem kw s loc, κ) := by
          simp only [matchCF, hfind]
        rw [hres]
        exact cacheStore_sound hκ (fun _ => ⟨kwSem_noFuel, 1, rfl⟩)
      | andThen a b =>
        obtain ⟨ihaC, ihaS⟩ := ih a loc κ hκ
        cases hqa : matchCF f a s loc κ with
        | mk oa κ1 =>
        rw [hqa] at ihaC ihaS
        cases oa with
        | ok l r =>
          obtain ⟨ihbC, ihbS⟩ := ih b l κ1 ihaC
          cases hqb : matchCF f b s l κ1 with
          | mk ob κ2 =>
          rw [hqb] at ihbC ihbS
          have hres : matchCF (f + 1) (.andThen a b) s loc κ =
              cacheStore (.andThen a b) loc (andCombine r ob, κ2) := by
            simp only [matchCF, hfind, hqa, hqb]
          rw [hres]
          exact cacheStore_sound ihbC (fun hne =>
            Computes.seq (ihaS (by simp)) (ihbS (fun hb => hne (andCombine_noFuel.mpr hb))))
        | err e1 m1 =>
          have hres : matchCF (f + 1) (.andThen a b) s loc κ =
              cacheStore (.andThen a b) loc (.err e1 m1, κ1) := by
            simp only [matchCF, hfind, hqa]
          rw [hres]
          exact cacheStore_sound ihaC (fun _ =>
            Computes.seqSkip b (ihaS (by simp)) (fun _ _ h => Outcome.noConfusion h))
        | fatal e1 m1 =>
          have hres : matchCF (f + 1) (.andThen a b) s loc κ =
              cacheStore (.andThen a b) loc (.fatal e1 m1, κ1) := by
            simp only [matchCF, hfind, hqa]
          rw [hres]
          exact cacheStore_sound ihaC (fun _ =>
            Computes.seqSkip b (ihaS (by simp)) (fun _ _ h => Outcome.noConfusion h))
        | confErr m1 =>
          have hres : matchCF (f + 1) (.andThen a b) s loc κ =
              cacheStore (.andThen a b) loc (.confErr m1, κ1) := by
            simp only [matchCF, hfind, hqa]
          rw [hres]
          exact cacheStore_sound ihaC (fun _ =>
            Computes.seqSkip b (ihaS (by simp)) (fun _ _ h => Outcome.noConfusion h))
        | noFuel =>
          have hres : matchCF (f + 1) (.andThen a b) s loc κ =
              cacheStore (.andThen a b) loc (.noFuel, κ1) := by
            simp only [matchCF, hfind, hqa]
          rw [hres]
          exact cacheStore_sound ihaC (fun hne => absurd rfl hne)
      | seqCut a rest =>
        obtain ⟨ihaC, ihaS⟩ := ih a loc κ hκ
        cases hqa : matchCF f a s loc κ with
        | mk oa κ1 =>
        rw [hqa] at ihaC ihaS
        cases oa with
        | ok l r =>
          obtain ⟨ihbC, ihbS⟩ := ih rest l κ1 ihaC
          cases hqb : matchCF f rest s l κ1 with
          | mk ob κ2 =>
          rw [hqb] at ihbC ihbS
          have hres : matchCF (f + 1) (.seqCut a rest) s loc κ =
              cacheStore (.seqCut a rest) loc (cutCombine r ob, κ2) := by
            simp only [matchCF, hfind, hqa, hqb]
          rw [hres]
          exact cacheStore_sound ihbC (fun hne =>
            Computes.cut (ihaS (by simp)) (ihbS (fun hb => hne (cutCombine_noFuel.mpr hb))))
        | err e1 m1 =>
          have hres : matchCF (f + 1) (.seqCut a rest) s loc κ =
              cacheStore (.seqCut a rest) loc (.err e1 m1, κ1) := by
            simp only [matchCF, hfind, hqa]
          rw [hres]
          exact cacheStore_sound ihaC (fun _ =>
            Computes.cutSkip rest (ihaS (by simp)) (fun _ _ h => Outcome.noConfusion h))
        | fatal e1 m1 =>
          have hres : matchCF (f + 1) (.seqCut a rest) s loc κ =
              cacheStore (.seqCut a rest) loc (.fatal e1 m1, κ1) := by
            simp only [matchCF, hfind, hqa]
          rw [hres]
          exact cacheStore_sound ihaC (fun _ =>
            Computes.cutSkip rest (ihaS (by simp)) (fun _ _ h => Outcome.noConfusion h))
        | confErr m1 =>
          have hres : matchCF (f + 1) (.seqCut a rest) s loc κ =
              cacheStore (.seqCut a rest) loc (.confErr m1, κ1) := by
            simp only [matchCF, hfind, hqa]
          rw [hres]
          exact cacheStore_sound ihaC (fun _ =>
            Computes.cutSkip rest (ihaS (by simp)) (fun _ _ h => Outcome.noConfusion h))
        | noFuel =>
          have hres : matchCF (f + 1) (.seqCut a rest) s loc κ =
              cacheStore (.seqCut a rest) loc (.noFuel, κ1) := by
            simp only [matchCF, hfind, hqa]
          rw [hres]
          exact cacheStore_sound ihaC (fun hne => absurd rfl hne)
      | orElse a b =>
        obtain ⟨ihaC, ihaS⟩ := ih a loc κ hκ
        cases hqa : matchCF f a s loc κ with
        | mk oa κ1 =>
        rw [hqa] at ihaC ihaS
        cases oa with
        | err e1 m1 =>
          obtain ⟨ihbC, ihbS⟩ := ih b loc κ1 ihaC
          cases hqb : matchCF f b s loc κ1 with
          | mk ob κ2 =>
          rw [hqb] at ihbC ihbS
          have hres : matchCF (f + 1) (.orElse a b) s loc κ =
              cacheStore (.orElse a b) loc (orCombine e1 m1 ob, κ2) := by
            simp only [matchCF, hfind, hqa, hqb]
          rw [hres]
          exact cacheStore_sound ihbC (fun hne =>
            Computes.orBoth (ihaS (by simp)) (ihbS (fun hb => hne (orCombine_noFuel.mpr hb))))
        | ok l r =>
          have hres : matchCF (f + 1) (.orElse a b) s loc κ =
              cacheStore (.orElse a b) loc (.ok l r, κ1) := by
            simp only [matchCF, hfind, hqa]
          rw [hres]
          exact cacheStore_sound ihaC (fun _ =>
            Computes.orFirst b (ihaS (by simp)) (fun _ _ h => Outcome.noConfusion h))
        | fatal e1 m1 =>
          have hres : matchCF (f + 1) (.orElse a b) s loc κ =
              cacheStore (.orElse a b) loc (.fatal e1 m1, κ1) := by
            simp only [matchCF, hfind, hqa]
          rw [hres]
          exact cacheStore_sound ihaC (fun _ =>
            Computes.orFirst b (ihaS (by simp)) (fun _ _ h => Outcome.noConfusion h))
        | confErr m1 =>
          have hres : matchCF (f + 1) (.orElse a b) s loc κ =
              cacheStore (.orElse a b) loc (.confErr m1, κ1) := by
            simp only [matchCF, hfind, hqa]
          rw [hres]
          exact cacheStore_sound ihaC (fun _ =>
            Computes.orFirst b (ihaS (by simp)) (fun _ _ h => Outcome.noConfusion h))
        | noFuel =>
          have hres : matchCF (f + 1) (.orElse a b) s loc κ =
              cacheStore (.orElse a b) loc (.noFuel, κ1) := by
            simp only [matchCF, hfind, hqa]
          rw [hres]
          exact cacheStore_sound ihaC (fun hne => absurd rfl hne)
      | opt c =>
        obtain ⟨ihcC, ihcS⟩ := ih c loc κ hκ
        cases hqc : matchCF f c s loc κ with
        | mk oc κ1 =>
        rw [hqc] at ihcC ihcS
        have hres : matchCF (f + 1) (.opt c) s loc κ =
            cacheStore (.opt c) loc (optCombine loc oc, κ1) := by
          simp only [matchCF, hfind, hqc]
        rw [hres]
        exact cacheStore_sound ihcC (fun hne =>
          Computes.optC (ihcS (fun hb => hne (optCombine_noFuel.mpr hb))))
      | suppress c =>
        obtain ⟨ihcC, ihcS⟩ := ih c loc κ hκ
        cases hqc : matchCF f c s loc κ with
        | mk oc κ1 =>
        rw [hqc] at ihcC ihcS
        have hres : matchCF (f + 1) (.suppress c) s loc κ =
            cacheStore (.suppress c) loc (supCombine oc, κ1) := by
          simp only [matchCF, hfind, hqc]
        rw [hres]
        exact cacheStore_sound ihcC (fun hne =>
          Computes.supC (ihcS (fun hb => hne (supCombine_noFuel.mpr hb))))
      | group c =>
        obtain ⟨ihcC, ihcS⟩ := ih c loc κ hκ
        cases hqc : matchCF f c s loc κ with
        | mk oc κ1 =>
        rw [hqc] at ihcC ihcS
        have hres : matchCF (f + 1) (.group c) s loc κ =
            cacheStore (.group c) loc (grpCombine oc, κ1) := by
          simp only [matchCF, hfind, hqc]
        rw [hres]
        exact cacheStore_sound ihcC (fun hne =>
          Computes.grpC (ihcS (fun hb => hne (grpCombine_noFuel.mpr hb))))
      | named nm c =>
        obtain ⟨ihcC, ihcS⟩ := ih c loc κ hκ
        cases hqc : matchCF f c s loc κ with
        | mk oc κ1 =>
        rw [hqc] at ihcC ihcS
        have hres : matchCF (f + 1) (.named nm c) s loc κ =
            cacheStore (.named nm c) loc (nameCombine nm oc, κ1) := by
          simp only [matchCF, hfind, hqc]
        rw [hres]
        exact cacheStore_sound ihcC (fun hne =>
          Computes.nameC (ihcS (fun hb => hne (nameCombine_noFuel.mpr hb))))
      | withCond cond c =>
        obtain ⟨ihcC, ihcS⟩ := ih c loc κ hκ
        cases hqc : matchCF f c s loc κ with
        | mk oc κ1 =>
        rw [hqc] at ihcC ihcS
        have hres : matchCF (f + 1) (.withCond cond c) s loc κ =
            cacheStore (.withCond cond c) loc (condCombine cond loc oc, κ1) := by
          simp only [matchCF, hfind, hqc]
        rw [hres]
        exact cacheStore_sound ihcC (fun hne =>
          Computes.condC (ihcS (fun hb => hne (condCombine_noFuel.mpr hb))))
      | rep mn mx c =>
        match mx with
        | some 0 =>
          have hres : matchCF (f + 1) (.rep mn (some 0) c) s loc κ =
              cacheStore (.rep mn (some 0) c) loc
                (repErr mn loc loc "Expected more repetitions", κ) := by
            simp only [matchCF, hfind]
          rw [hres]
          exact cacheStore_sound hκ (fun _ => Computes.repMax0 c s loc)
        | none =>
          obtain ⟨ihcC, ihcS⟩ := ih c loc κ hκ
          cases hqc : matchCF f c s loc κ with
          | mk oc κ1 =>
          rw [hqc] at ihcC ihcS
          cases oc with
          | ok l r =>
            by_cases hll : l ≤ loc
            · have hres : matchCF (f + 1) (.rep mn none c) s loc κ =
                  cacheStore (.rep mn none c) loc
                    (.confErr "repetition of an expression that can match an empty string",
                      κ1) := by
                simp only [matchCF, hfind, hqc, if_pos hll]
              rw [hres]
              exact cacheStore_sound ihcC (fun _ =>
                Computes.repChildEmpty (by simp) (ihcS (by simp)) hll)
            · obtain ⟨ihrC, ihrS⟩ := ih (.rep (mn - 1) (decrOpt none) c) l κ1 ihcC
              cases hqr : matchCF f (.rep (mn - 1) (decrOpt none) c) s l κ1 with
              | mk or1 κ2 =>
              rw [hqr] at ihrC ihrS
              have hres : matchCF (f + 1) (.rep mn none c) s loc κ =
                  cacheStore (.rep mn none c) loc (andCombine r or1, κ2) := by
                simp only [matchCF, hfind, hqc, if_neg hll, hqr]
              rw [hres]
              exact cacheStore_sound ihrC (fun hne =>
                Computes.repCont _ _ (by simp) (by simp) (ihcS (by simp))
                  (Nat.lt_of_not_le hll)
                  (ihrS (fun hb => hne (andCombine_noFuel.mpr hb))))
          | err e1 m1 =>
            have hres : matchCF (f + 1) (.rep mn none c) s loc κ =
                cacheStore (.rep mn none c) loc (repErr mn loc e1 m1, κ1) := by
              simp only [matchCF, hfind, hqc]
            rw [hres]
            exact cacheStore_sound ihcC (fun _ =>
              Computes.repChildErr _ _ (by simp) (ihcS (by simp)))
          | fatal e1 m1 =>
            have hres : matchCF (f + 1) (.rep mn none c) s loc κ =
                cacheStore (.rep mn none c) loc (.fatal e1 m1, κ1) := by
              simp only [matchCF, hfind, hqc]
            rw [hres]
            exact cacheStore_sound ihcC (fun _ =>
              Computes.repChildOther (by simp) (ihcS (by simp))
                (fun _ _ h => Outcome.noConfusion h) (fun _ _ h => Outcome.noConfusion h))
          | confErr m1 =>
            have hres : matchCF (f + 1) (.rep mn none c) s loc κ =
                cacheStore (.rep mn none c) loc (.confErr m1, κ1) := by
              simp only [matchCF, hfind, hqc]
            rw [hres]
            exact cacheStore_sound ihcC (fun _ =>
              Computes.repChildOther (by simp) (ihcS (by simp))
                (fun _ _ h => Outcome.noConfusion h) (fun _ _ h => Outcome.noConfusion h))
          | noFuel =>
            have hres : matchCF (f + 1) (.rep mn none c) s loc κ =
                cacheStore (.rep mn none c) loc (.noFuel, κ1) := by
              simp only [matchCF, hfind, hqc]
            rw [hres]
            exact cacheStore_sound ihcC (fun hne => absurd rfl hne)
        | some 1 =>
          obtain ⟨ihcC, ihcS⟩ := ih c loc κ hκ
          cases hqc : matchCF f c s loc κ with
          | mk oc κ1 =>
          rw [hqc] at ihcC ihcS
          cases oc with
          | ok l r =>
            by_cases hll : l ≤ loc
            · have hres : matchCF (f + 1) (.rep mn (some 1) c) s loc κ =
                  cacheStore (.rep mn (some 1) c) loc
                    (.confErr "repetition of an expression that can match an empty string",
                      κ1) := by
                simp only [matchCF, hfind, hqc, if_pos hll]
              rw [hres]
              exact cacheStore_sound ihcC (fun _ =>
                Computes.repChildEmpty (by simp) (ihcS (by simp)) hll)
            · have hres : matchCF (f + 1) (.rep mn (some 1) c) s loc κ =
                  cacheStore (.rep mn (some 1) c) loc (.ok l r, κ1) := by
                simp only [matchCF, hfind, hqc, if_neg hll]
              rw [hres]
              exact cacheStore_sound ihcC (fun _ =>
                Computes.repLast (ihcS (by simp)) (Nat.lt_of_not_le hll))
          | err e1 m1 =>
            have hres : matchCF (f + 1) (.rep mn (some 1) c) s loc κ =
                cacheStore (.rep mn (some 1) c) loc (repErr mn loc e1 m1, κ1) := by
              simp only [matchCF, hfind, hqc]
            rw [hres]
            exact cacheStore_sound ihcC (fun _ =>
              Computes.repChildErr _ _ (by simp) (ihcS (by simp)))
          | fatal e1 m1 =>
            have hres : matchCF (f + 1) (.rep mn (some 1) c) s loc κ =
                cacheStore (.rep mn (some 1) c) loc (.fatal e1 m1, κ1) := by
              simp only [matchCF, hfind, hqc]
            rw [hres]
            exact cacheStore_sound ihcC (fun _ =>
              Computes.repChildOther (by simp) (ihcS (by simp))
                (fun _ _ h => Outcome.noConfusion h) (fun _ _ h => Outcome.noConfusion h))
          | confErr m1 =>
            have hres : matchCF (f + 1) (.rep mn (some 1) c) s loc κ =
                cacheStore (.rep mn (some 1) c) loc (.confErr m1, κ1) := by
              simp only [matchCF, hfind, hqc]
            rw [hres]
            exact cacheStore_sound ihcC (fun _ =>
              Computes.repChildOther (by simp) (ihcS (by simp))
                (fun _ _ h => Outcome.noConfusion h) (fun _ _ h => Outcome.noConfusion h))
          | noFuel =>
            have hres : matchCF (f + 1) (.rep mn (some 1) c) s loc κ =
                cacheStore (.rep mn (some 1) c) loc (.noFuel, κ1) := by
              simp only [matchCF, hfind, hqc]
            rw [hres]
            exact cacheStore_sound ihcC (fun hne => absurd rfl hne)
        | some (k + 2) =>
          obtain ⟨ihcC, ihcS⟩ := ih c loc κ hκ
          cases hqc : matchCF f c s loc κ with
          | mk oc κ1 =>
          rw [hqc] at ihcC ihcS
          cases oc with
          | ok l r =>
            by_cases hll : l ≤ loc
            · have hres : matchCF (f + 1) (.rep mn (some (k + 2)) c) s loc κ =
                  cacheStore (.rep mn (some (k + 2)) c) loc
                    (.confErr "repetition of an expression that can match an empty string",
                      κ1) := by
                simp only [matchCF, hfind, hqc, if_pos hll]
              rw [hres]
              exact cacheStore_sound ihcC (fun _ =>
                Computes.repChildEmpty (by simp) (ihcS (by simp)) hll)
            · obtain ⟨ihrC, ihrS⟩ := ih (.rep (mn - 1) (decrOpt (some (k + 2))) c) l κ1 ihcC
              cases hqr : matchCF f (.rep (mn - 1) (decrOpt (some (k + 2))) c) s l κ1 with
              | mk or1 κ2 =>
              rw [hqr] at ihrC ihrS
              have hres : matchCF (f + 1) (.rep mn (some (k + 2)) c) s loc κ =
                  cacheStore (.rep mn (some (k + 2)) c) loc (andCombine r or1, κ2) := by
                simp only [matchCF, hfind, hqc, if_neg hll, hqr]
              rw [hres]
              exact cacheStore_sound ihrC (fun hne =>
                Computes.repCont _ _ (by simp) (by simp) (ihcS (by simp))
                  (Nat.lt_of_not_le hll)
                  (ihrS (fun hb => hne (andCombine_noFuel.mpr hb))))
          | err e1 m1 =>
            have hres : matchCF (f + 1) (.rep mn (some (k + 2)) c) s loc κ =
                cacheStore (.rep mn (some (k + 2)) c) loc (repErr mn loc e1 m1, κ1) := by
              simp only [matchCF, hfind, hqc]
            rw [hres]
            exact cacheStore_sound ihcC (fun _ =>
              Computes.repChildErr _ _ (by simp) (ihcS (by simp)))
          | fatal e1 m1 =>
            have hres : matchCF (f + 1) (.rep mn (some (k + 2)) c) s loc κ =
                cacheStore (.rep mn (some (k + 2)) c) loc (.fatal e1 m1, κ1) := by
              simp only [matchCF, hfind, hqc]
            rw [hres]
            exact cacheStore_sound ihcC (fun _ =>
              Computes.repChildOther (by simp) (ihcS (by simp))
                (fun _ _ h => Outcome.noConfusion h) (fun _ _ h => Outcome.noConfusion h))
          | confErr m1 =>
            have hres : matchCF (f + 1) (.rep mn (some (k + 2)) c) s loc κ =
                cacheStore (.rep mn (some (k + 2)) c) loc (.confErr m1, κ1) := by
              simp only [matchCF, hfind, hqc]
            rw [hres]
            exact cacheStore_sound ihcC (fun _ =>
              Computes.repChildOther (by simp) (ihcS (by simp))
                (fun _ _ h => Outcome.noConfusion h) (fun _ _ h => Outcome.noConfusion h))
          | noFuel =>
            have hres : matchCF (f + 1) (.rep mn (some (k + 2)) c) s loc κ =
                cacheStore (.rep mn (some (k + 2)) c) loc (.noFuel, κ1) := by
              simp only [matchCF, hfind, hqc]
            rw [hres]
            exact cacheStore_sound ihcC (fun hne => absurd rfl hne)

/-- C1 (counterexample): the reported failure offset is not, in general, the
maximum offset over all deepest partial matches attempted during the parse.
For Optional(Literal("a")+Literal("b")) + Literal("c") on "ax", the attempt of
the optional part failed at offset 1 before being backtracked over, so the
maximum attempted-failure offset (`deepF`) is 1, yet the parse reports its
failure at offset 0. -/
theorem claim_C1_counterexample :
    parseString cexG "ax" false = .err 0 "Expected c" ∧
    deepF 16 cexG "ax".data 0 = 1 ∧ (0 : Nat) ≠ 1 :=
  ⟨rfl, rfl, by decide⟩

/-- C1 (amended): when every alternative of a Choice fails, the reported
failure is the one with the maximum offset (first alternative's message on
ties), not simply the last alternative tried; and the sequence
Literal("x")+Literal("y")+Literal("z") applied to "xy" fails at offset 2, not
0. The reported offset of a failing parse is the failure offset of the path
the parse committed to, not the maximum over all attempted partial matches. -/
theorem claim_C1_amended :
    (∀ f a b s loc e1 m1 e2 m2, matchF f a s loc = .err e1 m1 →
      matchF f b s loc = .err e2 m2 →
      matchF (f + 1) (.orElse a b) s loc = .err (max e1 e2) (if e1 < e2 then m2 else m1)) ∧
    parseString (.andThen (.andThen (.literal "x") (.literal "y")) (.literal "z")) "xy" false =
      .err 2 "Expected z" := by
  constructor
  · intro f a b s loc e1 m1 e2 m2 h1 h2
    simp only [matchF, h1, h2, orCombine]
    by_cases hlt : e1 < e2
    · simp [hlt, Nat.max_eq_right (Nat.le_of_lt hlt)]
    · simp [hlt, Nat.max_eq_left (Nat.le_of_not_lt hlt)]
  · rfl

/-- C1 (witness): a Choice whose first alternative fails at offset 0 and whose
second fails at offset 1 reports the failure at the maximum offset 1. -/
theorem claim_C1_witness :
    matchF 4 (.orElse (.literal "z") (.andThen (.literal "x") (.literal "q"))) "xy".data 0 =
      .err (max 0 1) (if 0 < 1 then "Expected q" else "Expected z") :=
  claim_C1_amended.1 3 _ _ _ 0 0 "Expected z" 1 "Expected q" rfl rfl

/-- C2: with integer operands, `*`,`/` at the tighter level and `+`,`-` at the
looser level, both left-associative, "3*4+5" parses to the grouping
[[3,*,4],+,5], whose left-to-right evaluation equals (3*4)+5 and differs from
3*(4+5); and "1-2+3" (same level, declaration order `+` before `-`) parses to
[1,-,2,+,3], whose left-associative evaluation equals (1-2)+3 and differs from
the right-associative reading 1-(2+3): same-level operators bind by the
declared associativity, not declaration order. -/
theorem claim_C2 :
    parseString arithExpr "3*4+5" false =
      .ok 5 ⟨[.group [.group [.num 3, .str "*", .num 4], .str "+", .num 5]], []⟩ ∧
    evalTok 20 (.group [.group [.num 3, .str "*", .num 4], .str "+", .num 5]) = (3 * 4) + 5 ∧
    ((3 : Int) * 4) + 5 ≠ 3 * (4 + 5) ∧
    parseString arithExpr "1-2+3" false =
      .ok 5 ⟨[.group [.num 1, .str "-", .num 2, .str "+", .num 3]], []⟩ ∧
    evalTok 20 (.group [.num 1, .str "-", .num 2, .str "+", .num 3]) = (1 - 2) + 3 ∧
    ((1 : Int) - 2) + 3 ≠ 1 - (2 + 3) :=
  ⟨rfl, rfl, by decide, rfl, rfl, by decide⟩

/-- C4: once the children before a commit point have matched, a recoverable
failure of any later child escalates to a fatal failure; a fatal failure
propagates through Choice (no alternative is retried) and through Optional;
a failure before the commit point stays recoverable, so an enclosing Choice
proceeds to its next alternative. -/
theorem claim_C4 :
    (∀ f pre rest s loc l r e msg, matchF f pre s loc = .ok l r →
      matchF f rest s l = .err e msg →
      matchF (f + 1) (.seqCut pre rest) s loc = .fatal e msg) ∧
    (∀ f a b s loc e msg, matchF f a s loc = .fatal e msg →
      matchF (f + 1) (.orElse a b) s loc = .fatal e msg) ∧
    (∀ f c s loc e msg, matchF f c s loc = .fatal e msg →
      matchF (f + 1) (.opt c) s loc = .fatal e msg) ∧
    (∀ f pre rest s loc e msg, matchF f pre s loc = .err e msg →
      matchF (f + 1) (.seqCut pre rest) s loc = .err e msg) ∧
    (∀ f pre rest alt s loc e msg lb rb, matchF f pre s loc = .err e msg →
      matchF (f + 1) alt s loc = .ok lb rb →
      matchF (f + 2) (.orElse (.seqCut pre rest) alt) s loc = .ok lb rb) := by
  refine ⟨?_, ?_, ?_, ?_, ?_⟩
  · intro f pre rest s loc l r e msg h1 h2
    simp only [matchF, h1, h2, cutCombine]
  · intro f a b s loc e msg h1
    simp only [matchF, h1]
  · intro f c s loc e msg h1
    simp only [matchF, h1, optCombine]
  · intro f pre rest s loc e msg h1
    simp only [matchF, h1]
  · intro f pre rest alt s loc e msg lb rb h1 h2
    simp only [matchF, h1, h2, orCombine]

/-- C4 (witness): CaselessKeyword("if") - LPAR on "if[" fails fatally at
offset 2; an enclosing Choice propagates the fatal failure instead of trying
its (otherwise matching) word alternative; and a Choice whose first
alternative fails before its commit point does try the next alternative. -/
theorem claim_C4_witness :
    matchF 9 ifM "if[".data 0 = .fatal 2 "Expected (" ∧
    matchF 10 (.orElse ifM (.word alphaChars alphaChars 1 none)) "if[".data 0 =
      .fatal 2 "Expected (" ∧
    matchF 10 (.orElse (.seqCut (.literal "z") (.literal "q")) (.literal "x")) "xy".data 0 =
      .ok 1 ⟨[.str "x"], []⟩ := by
  have h1 : matchF 9 ifM "if[".data 0 = .fatal 2 "Expected (" :=
    claim_C4.1 8 _ _ _ 0 2 ⟨[.str "if"], []⟩ 2 "Expected (" rfl rfl
  refine ⟨h1, claim_C4.2.1 9 _ _ _ 0 2 "Expected (" h1, ?_⟩
  exact claim_C4.2.2.2.2 8 _ _ _ _ 0 0 "Expected z" 1 ⟨[.str "x"], []⟩ rfl rfl

/-- C8: Word(alpha)("key") + Suppress("=") + Integer("value") on "range=5280"
yields the ordered token sequence ["range", 5280] with the suppressed "="
absent, the dict view {"key": "range", "value": 5280}, and named entries that
are positional indices (0 and 1) into the same ordered token sequence. -/
theorem claim_C8 :
    parseString namedGrammar "range=5280" false =
      .ok 10 ⟨[.str "range", .num 5280], [("key", 0), ("value", 1)]⟩ ∧
    (resOf (parseString namedGrammar "range=5280" false)).asList =
      [.str "range", .num 5280] ∧
    (resOf (parseString namedGrammar "range=5280" false)).asDict =
      [("key", .str "range"), ("value", .num 5280)] :=
  ⟨rfl, rfl, rfl⟩

/-- C9: a parse condition only accepts or rejects: acceptance passes the
child's result through unchanged (no token rewriting), rejection is a
recoverable match failure at the matcher's position, so an enclosing Choice
tries its next alternative; and OneOrMore(Word(nums) restricted to multiples
of 7) on "14 35 77 12 28" stops at the rejection and yields exactly
["14", "35", "77"]. -/
theorem claim_C9 :
    (∀ f cond c s loc l r, matchF f c s loc = .ok l r → evalCond cond r.toks = true →
      matchF (f + 1) (.withCond cond c) s loc = .ok l r) ∧
    (∀ f cond c s loc l r, matchF f c s loc = .ok l r → evalCond cond r.toks = false →
      matchF (f + 1) (.withCond cond c) s loc = .err loc "Condition failed") ∧
    (∀ f cond c b s loc l r lb rb, matchF f c s loc = .ok l r →
      evalCond cond r.toks = false → matchF (f + 1) b s loc = .ok lb rb →
      matchF (f + 2) (.orElse (.withCond cond c) b) s loc = .ok lb rb) ∧
    parseString mult7Grammar "14 35 77 12 28" false =
      .ok 8 ⟨[.str "14", .str "35", .str "77"], []⟩ := by
  refine ⟨?_, ?_, ?_, rfl⟩
  · intro f cond c s loc l r h1 h2
    simp only [matchF, h1, condCombine, h2, if_true]
  · intro f cond c s loc l r h1 h2
    simp [matchF, h1, condCombine, h2]
  · intro f cond c b s loc l r lb rb h1 h2 h3
    simp [matchF, h1, condCombine, h2, h3, orCombine]

/-- C9 (witness): the condition "multiple of 7" accepts Word(nums) on "14"
without rewriting, rejects it on "12" as a failure at position 0, and the
rejection lets a Choice match its second alternative. -/
theorem claim_C9_witness :
    matchF 4 (.withCond (.divisibleBy 7) (.word numChars numChars 1 none)) "14".data 0 =
      .ok 2 ⟨[.str "14"], []⟩ ∧
    matchF 4 (.withCond (.divisibleBy 7) (.word numChars numChars 1 none)) "12".data 0 =
      .err 0 "Condition failed" ∧
    matchF 5 (.orElse (.withCond (.divisibleBy 7) (.word numChars numChars 1 none))
        (.literal "12")) "12".data 0 = .ok 2 ⟨[.str "12"], []⟩ :=
  ⟨claim_C9.1 3 _ _ _ 0 2 ⟨[.str "14"], []⟩ rfl rfl,
   claim_C9.2.1 3 _ _ _ 0 2 ⟨[.str "12"], []⟩ rfl rfl,
   claim_C9.2.2.1 3 _ _ _ _ 0 2 ⟨[.str "12"], []⟩ 2 ⟨[.str "12"], []⟩ rfl rfl rfl⟩

/-- C5: a Repeat whose child succeeded while consuming zero characters is
detected at first use and reported as a configuration error whose diagnostic
is a different constructor from an input-parsing ParseFailure; and every
matcher computes a definite outcome at every position (some fuel budget
suffices), so every parse invocation over a well-formed or ill-formed grammar
terminates. -/
theorem claim_C5 :
    (∀ (f mn : Nat) (mx : Option Nat) (c : Matcher) (s : List Char) (loc l : Nat)
      (r : PResult), mx ≠ some 0 → matchF f c s loc = .ok l r → l ≤ loc →
      matchF (f + 1) (.rep mn mx c) s loc =
        .confErr "repetition of an expression that can match an empty string") ∧
    (∀ (e : Nat) (msg1 msg2 : String), Outcome.confErr msg1 ≠ Outcome.err e msg2) ∧
    (∀ (m : Matcher) (s : List Char) (loc : Nat), ∃ o, Computes m s loc o) := by
  refine ⟨?_, ?_, fun m s loc => matchF_total m s loc⟩
  · intro f mn mx c s loc l r hmx h hle
    match mx with
    | some 0 => exact absurd rfl hmx
    | none => simp only [matchF, h]; simp [hle]
    | some 1 => simp only [matchF, h]; simp [hle]
    | some (k + 2) => simp only [matchF, h]; simp [hle]
  · intro e msg1 msg2 h
    exact Outcome.noConfusion h

/-- C5 (witness): OneOrMore over the empty literal, whose match consumes zero
characters, yields the configuration error at first use. -/
theorem claim_C5_witness :
    matchF 2 (.rep 0 none (.literal "")) "ab".data 0 =
      .confErr "repetition of an expression that can match an empty string" :=
  claim_C5.1 1 0 none (.literal "") "ab".data 0 0 ⟨[.str ""], []⟩ (by simp) rfl
    (Nat.le_refl 0)

/-- C6: if from a position the child matcher succeeds exactly k ≥ 1 times,
producing one token and consuming input each time, and then fails, then
Repeat(min=1,max=∞) of the child succeeds there with a token sequence of
length exactly k; and Delimited on an item followed by exactly k (delimiter,
item) tail pairs (n = k+1 items, n-1 delimiters) yields exactly n item tokens
with the suppressed delimiters absent from the result. -/
theorem claim_C6 :
    (∀ (c : Matcher) (s : List Char) (loc endL : Nat) (ts : List Tok) (k : Nat),
      RepsOne c s loc endL ts k → 1 ≤ k →
      ∃ r : PResult, Computes (.rep 1 none c) s loc (.ok endL r) ∧
        r.toks = ts ∧ ts.length = k) ∧
    (∀ (item delim : Matcher) (s : List Char) (loc l1 endL : Nat) (t : Tok)
      (nm : List (String × Nat)) (ts : List Tok) (k : Nat),
      Computes item s loc (.ok l1 ⟨[t], nm⟩) →
      RepsOne (pairM item delim) s l1 endL ts k →
      ∃ r : PResult, Computes (delimitedList item delim) s loc (.ok endL r) ∧
        r.toks = t :: ts ∧ (t :: ts).length = k + 1) := by
  constructor
  · intro c s loc endL ts k hreps hk
    cases hreps with
    | stop loc e msg hc => omega
    | step loc l endL t nm ts' k' hc hlt hsub =>
      obtain ⟨r2, hr2, ht⟩ := reps_rep0 hsub
      refine ⟨PResult.app ⟨[t], nm⟩ r2, ?_, by simp [PResult.app, ht],
        by simp [reps_length hsub]⟩
      exact Computes.repCont 1 none (by simp) (by simp) hc hlt hr2
  · intro item delim s loc l1 endL t nm ts k h1 hch
    obtain ⟨r2, hr2, ht⟩ := reps_rep0 hch
    refine ⟨PResult.app ⟨[t], nm⟩ r2, ?_, by simp [PResult.app, ht],
      by simp [reps_length hch]⟩
    exact Computes.seq h1 hr2

/-- C3: with the packrat cache enabled, parsing the same (matcher, input) pair
twice within the same cache session returns identical results both times, and
the outcome (whether served from a cache hit or executed) equals the outcome
of the uncached interpreter: the cached and uncached parse functions are
extensionally equal. -/
theorem claim_C3 (m : Matcher) (s : List Char) (loc : Nat) (f1 f2 g : Nat)
    (hn1 : (matchCF f1 m s loc []).1 ≠ .noFuel)
    (hn2 : (matchCF f2 m s loc (matchCF f1 m s loc []).2).1 ≠ .noFuel)
    (hng : matchF g m s loc ≠ .noFuel) :
    (matchCF f2 m s loc (matchCF f1 m s loc []).2).1 = (matchCF f1 m s loc []).1 ∧
    (matchCF f1 m s loc []).1 = matchF g m s loc := by
  obtain ⟨hC1, hS1⟩ := matchCF_sound s f1 m loc [] (CacheOK.nil s)
  obtain ⟨hC2, hS2⟩ := matchCF_sound s f2 m loc (matchCF f1 m s loc []).2 hC1
  have c1 := hS1 hn1
  have c2 := hS2 hn2
  have cg : Computes m s loc (matchF g m s loc) := ⟨hng, g, rfl⟩
  exact ⟨c2.det c1, c1.det cg⟩

/-- C3 (witness): running the cached interpreter twice on the same grammar and
input within one session gives identical outcomes, equal to the uncached
interpreter's outcome. -/
theorem claim_C3_witness :
    (matchCF 32 abGrammar "ab".data 0 (matchCF 32 abGrammar "ab".data 0 []).2).1 =
      (matchCF 32 abGrammar "ab".data 0 []).1 ∧
    (matchCF 32 abGrammar "ab".data 0 []).1 = matchF 32 abGrammar "ab".data 0 := by
  refine claim_C3 abGrammar "ab".data 0 32 32 32 ?_ ?_ ?_
  · rw [show (matchCF 32 abGrammar "ab".data 0 []).1 =
      Outcome.ok 2 ⟨[.str "ab"], []⟩ from rfl]
    simp
  · rw [show (matchCF 32 abGrammar "ab".data 0 (matchCF 32 abGrammar "ab".data 0 []).2).1 =
      Outcome.ok 2 ⟨[.str "ab"], []⟩ from rfl]
    simp
  · rw [show matchF 32 abGrammar "ab".data 0 = Outcome.ok 2 ⟨[.str "ab"], []⟩ from rfl]
    simp

theorem parseString_ok_all {m : Matcher} {text : String} {l : Nat} {r : PResult}
    (h : matchF (parseFuel m text.data) m text.data 0 = .ok l r)
    (hend : skipWs text.data l = text.data.length) :
    parseString m text true = .ok text.data.length r := by
  simp only [parseString, h, hend]
  simp

theorem parseString_ok_noAll {m : Matcher} {text : String} {l : Nat} {r : PResult}
    (h : matchF (parseFuel m text.data) m text.data 0 = .ok l r) :
    parseString m text false = .ok l r := by
  simp only [parseString, h]
  simp

theorem parseString_leftover {m : Matcher} {text : String} {l : Nat} {r : PResult}
    (h : matchF (parseFuel m text.data) m text.data 0 = .ok l r)
    (hend : skipWs text.data l ≠ text.length) :
    parseString m text true = .err (skipWs text.data l) "Expected end of text" := by
  simp only [parseString, h]
  simp [hend]

theorem parseFuel_succ (m : Matcher) (s : List Char) :
    ∃ g, parseFuel m s = g + 1 := by
  refine ⟨parseFuel m s - 1, ?_⟩
  have hpos : 0 < parseFuel m s := Nat.mul_pos (by omega) (by omega)
  omega

theorem litStarts_self (a : List Char) : litStarts a a = true := by
  have h := litStarts_append a []
  simpa using h

theorem skipWs_zero_of_no_ws {t : String} (hws : startsWithWs t = false) :
    skipWs t.data 0 = 0 := by
  simp only [skipWs, List.drop_zero]
  cases hd : t.data with
  | nil => simp [countWhile]
  | cons c cs =>
    simp only [startsWithWs, hd] at hws
    simp [countWhile, hws]

theorem skipWs_zero_append {t : String} (hws : startsWithWs t = false) :
    skipWs (t.data ++ [Char.ofNat 120]) 0 = 0 := by
  simp only [skipWs, List.drop_zero]
  cases hd : t.data with
  | nil => simp [countWhile]; decide
  | cons c cs =>
    simp only [startsWithWs, hd] at hws
    simp [countWhile, hws]

theorem skipWs_at_end (s : List Char) (loc : Nat) (h : s.length ≤ loc) :
    skipWs s loc = loc := by
  simp only [skipWs]
  rw [List.drop_eq_nil_of_le h]
  simp [countWhile]

/-- C7 (counterexample): the law "for every literal string s,
parse(Literal(s), s, parse_all=true) succeeds" fails for a literal beginning
with whitespace: Literal(" a") on " a" skips the leading whitespace and then
cannot match its own text, failing at offset 1. -/
theorem claim_C7_counterexample :
    parseString (.literal " a") " a" true = .err 1 "Expected  a" := rfl

/-- C7 (amended): for every literal string s that does not begin with a
whitespace character, parse(Literal(s), s, parse_all=true) succeeds consuming
the entire input, and parse(Literal(s), s ++ "x", parse_all=false) succeeds
consuming only s; and with parse_all=true, whenever input beyond trailing
whitespace remains after the root matcher succeeds, parsing fails at the first
unconsumed offset. -/
theorem claim_C7_amended :
    (∀ s : String, startsWithWs s = false →
      parseString (.literal s) s true = .ok s.length ⟨[.str s], []⟩ ∧
      parseString (.literal s) (s ++ "x") false = .ok s.length ⟨[.str s], []⟩) ∧
    (∀ (m : Matcher) (text : String) (l : Nat) (r : PResult),
      matchF (parseFuel m text.data) m text.data 0 = .ok l r →
      skipWs text.data l ≠ text.length →
      parseString m text true = .err (skipWs text.data l) "Expected end of text") := by
  constructor
  · intro s hws
    have hlen : s.length = s.data.length := rfl
    constructor
    · obtain ⟨g, hg⟩ := parseFuel_succ (.literal s) s.data
      have hlit : matchF (parseFuel (.literal s) s.data) (.literal s) s.data 0 =
          .ok (0 + s.length) ⟨[.str s], []⟩ := by
        rw [hg]
        simp only [matchF, litSem, skipWs_zero_of_no_ws hws, List.drop_zero,
          litStarts_self]
        simp
      have hend : skipWs s.data (0 + s.length) = s.data.length := by
        rw [skipWs_at_end s.data (0 + s.length) (by omega)]
        omega
      have hres := parseString_ok_all hlit hend
      rw [hres, ← hlen]
    · obtain ⟨g, hg⟩ := parseFuel_succ (.literal s) (s ++ "x").data
      have hdata : (s ++ "x").data = s.data ++ [Char.ofNat 120] := by
        have h1 : (s ++ "x").data = s.data ++ "x".data := String.data_append s "x"
        rw [h1]
      have hlit : matchF (parseFuel (.literal s) (s ++ "x").data) (.literal s)
          ((s ++ "x").data) 0 = .ok (0 + s.length) ⟨[.str s], []⟩ := by
        rw [hg]
        simp only [matchF, litSem, hdata, skipWs_zero_append hws, List.drop_zero,
          litStarts_append]
        simp
      have hres := parseString_ok_noAll hlit
      rw [hres]
      simp
  · intro m text l r h hend
    exact parseString_leftover h hend

/-- C7 (witness): Literal("xyz") on "xyz" with parse_all consumes all input;
Literal("xyz") on "xyzx" without parse_all consumes only "xyz"; and
Literal("x") on "xy" with parse_all fails at the first unconsumed offset 1. -/
theorem claim_C7_witness :
    parseString (.literal "xyz") "xyz" true = .ok 3 ⟨[.str "xyz"], []⟩ ∧
    parseString (.literal "xyz") ("xyz" ++ "x") false = .ok 3 ⟨[.str "xyz"], []⟩ ∧
    parseString (.literal "x") "xy" true = .err 1 "Expected end of text" := by
  obtain ⟨h1, h2⟩ := claim_C7_amended.1 "xyz" (by decide)
  refine ⟨h1, h2, ?_⟩
  have h3 := claim_C7_amended.2 (.literal "x") "xy" 1 ⟨[.str "x"], []⟩ rfl (by decide)
  rw [h3]
  rfl

theorem ciStarts_iff_map : ∀ a b : List Char,
    (ciStarts a b = true ∧ b.length ≤ a.length) ↔
      List.map lowCode a = List.map lowCode b := by
  intro a
  induction a with
  | nil =>
    intro b
    cases b with
    | nil => simp [ciStarts]
    | cons y ys => simp [ciStarts]
  | cons x xs ih =>
    intro b
    cases b with
    | nil => simp [ciStarts]
    | cons y ys =>
      simp only [ciStarts, Bool.and_eq_true, beq_iff_eq, List.length_cons,
        List.map_cons, List.cons.injEq]
      constructor
      · rintro ⟨⟨hxy, hci⟩, hlen⟩
        exact ⟨hxy, (ih ys).mp ⟨hci, by omega⟩⟩
      · rintro ⟨hxy, hmap⟩
        obtain ⟨hci, hlen⟩ := (ih ys).mpr hmap
        exact ⟨⟨hxy, hci⟩, by omega⟩

theorem alnum_not_ws {c : Char} (h : (isAlphaC c || isDigitC c) = true) :
    isWs c = false := by
  simp only [isAlphaC, isDigitC, Bool.or_eq_true, Bool.and_eq_true,
    decide_eq_true_eq] at h
  simp only [isWs, Bool.or_eq_false_iff, decide_eq_false_iff_not]
  omega

theorem alnum_ident {c : Char} (h : (isAlphaC c || isDigitC c) = true) :
    isIdentC c = true := by
  simp only [Bool.or_eq_true] at h
  rcases h with h | h <;> simp [isIdentC, h]

theorem allAlnum_skip {t : String} (ht : allAlnum t = true) : skipWs t.data 0 = 0 := by
  simp only [skipWs, List.drop_zero]
  cases hd : t.data with
  | nil => simp [countWhile]
  | cons c cs =>
    have hc : (isAlphaC c || isDigitC c) = true := by
      have h2 := ht
      simp only [allAlnum, hd, List.all_cons, Bool.and_eq_true] at h2
      exact h2.1
    simp [countWhile, alnum_not_ws hc]

/-- C10: for ASCII alphanumeric keyword and input words, CaselessKeyword(kw)
applied to the whole input word with parse_all succeeds exactly when the input
word equals the keyword up to letter case, and on success the captured token
is the keyword in its declared casing (not the input casing); otherwise the
match fails at offset 0. -/
theorem claim_C10 (kw t : String) (_hk : allAlnum kw = true) (ht : allAlnum t = true) :
    (parseString (.caselessKeyword kw) t true = .ok t.length ⟨[.str kw], []⟩ ↔
      lowerEq kw t = true) ∧
    (lowerEq kw t = false →
      parseString (.caselessKeyword kw) t true = .err 0 ("Expected keyword " ++ kw)) := by
  have hlenkw : kw.length = kw.data.length := rfl
  have hlent : t.length = t.data.length := rfl
  have hskip := allAlnum_skip ht
  have key : (ciStarts kw.data t.data = true ∧ t.data.length ≤ kw.data.length) ↔
      lowerEq kw t = true := by
    constructor
    · intro h
      have hmap := (ciStarts_iff_map kw.data t.data).mp h
      simp [lowerEq, hmap]
    · intro h
      apply (ciStarts_iff_map kw.data t.data).mpr
      simpa [lowerEq] using h
  by_cases hmap : lowerEq kw t = true
  · obtain ⟨hci, hle⟩ := key.mpr hmap
    have hlens : kw.data.length = t.data.length := by
      have hm := (ciStarts_iff_map kw.data t.data).mp ⟨hci, hle⟩
      have := congrArg List.length hm
      simpa using this
    have hD : t.data.drop (0 + kw.length) = [] := by
      apply List.drop_eq_nil_of_le
      omega
    obtain ⟨g, hg⟩ := parseFuel_succ (.caselessKeyword kw) t.data
    have hkwm : matchF (parseFuel (.caselessKeyword kw) t.data) (.caselessKeyword kw)
        t.data 0 = .ok (0 + kw.length) ⟨[.str kw], []⟩ := by
      rw [hg]
      simp only [matchF, kwSem, hskip, List.drop_zero, hD, hci]
      simp
    have hend2 : skipWs t.data (0 + kw.length) = t.data.length := by
      rw [skipWs_at_end t.data (0 + kw.length) (by omega)]
      omega
    have hres := parseString_ok_all hkwm hend2
    refine ⟨⟨fun _ => hmap, fun _ => ?_⟩, fun hf => by simp [hf] at hmap⟩
    rw [hres, hlent]
  · have hmapf : lowerEq kw t = false := by
      simpa using hmap
    have hcond : kwSem kw t.data 0 = .err 0 ("Expected keyword " ++ kw) := by
      simp only [kwSem, hskip, List.drop_zero]
      cases hci : ciStarts kw.data t.data with
      | false => simp [hci]
      | true =>
        cases hD : t.data.drop (0 + kw.length) with
        | nil =>
          exfalso
          have hle := List.drop_eq_nil_iff.mp hD
          have hT : lowerEq kw t = true := key.mp ⟨hci, by omega⟩
          rw [hmapf] at hT
          exact Bool.noConfusion hT
        | cons c cs =>
          have hcmem : c ∈ t.data :=
            List.mem_of_mem_drop (by rw [hD]; exact List.mem_cons_self _ _)
          have hcal : (isAlphaC c || isDigitC c) = true := by
            have h2 := ht
            simp only [allAlnum, List.all_eq_true] at h2
            exact h2 c hcmem
          simp [hD, alnum_ident hcal, hci]
    obtain ⟨g, hg⟩ := parseFuel_succ (.caselessKeyword kw) t.data
    have hkwm : matchF (parseFuel (.caselessKeyword kw) t.data) (.caselessKeyword kw)
        t.data 0 = .err 0 ("Expected keyword " ++ kw) := by
      rw [hg]
      simp only [matchF]
      exact hcond
    have hres : parseString (.caselessKeyword kw) t true =
        .err 0 ("Expected keyword " ++ kw) := by
      simp only [parseString, hkwm]
    refine ⟨⟨fun hok => ?_, fun hl => absurd hl hmap⟩, fun _ => hres⟩
    rw [hres] at hok
    exact Outcome.noConfusion hok

/-- C10 (witness): CaselessKeyword("sum") matches "Sum" capturing the declared
casing "sum", and rejects "SUMX" at offset 0. -/
theorem claim_C10_witness :
    parseString (.caselessKeyword "sum") "Sum" true = .ok 3 ⟨[.str "sum"], []⟩ ∧
    parseString (.caselessKeyword "sum") "SUMX" true = .err 0 "Expected keyword sum" :=
  ⟨(claim_C10 "sum" "Sum" (by decide) (by decide)).1.mpr (by decide),
   (claim_C10 "sum" "SUMX" (by decide) (by decide)).2 (by decide)⟩

/-- C6 (witness): OneOrMore(Word("x")) on "x x x" (three occurrences) yields
exactly three tokens, and Delimited(Word("x"), ",") on "x,x" (two items, one
delimiter) yields exactly two item tokens with the delimiter absent. -/
theorem claim_C6_witness :
    (∃ r : PResult,
      Computes (.rep 1 none (.word "x".data "x".data 1 none)) "x x x".data 0 (.ok 5 r) ∧
      r.toks = [.str "x", .str "x", .str "x"] ∧
      ([Tok.str "x", .str "x", .str "x"]).length = 3) ∧
    (∃ r : PResult,
      Computes (delimitedList (.word "x".data "x".data 1 none) (.literal ","))
        "x,x".data 0 (.ok 3 r) ∧
      r.toks = [.str "x", .str "x"] ∧ ([Tok.str "x", .str "x"]).length = 1 + 1) := by
  have d5 : RepsOne (.word "x".data "x".data 1 none) "x x x".data 5 5 [] 0 :=
    .stop 5 5 "Expected word" ⟨by simp, 3, rfl⟩
  have d3 : RepsOne (.word "x".data "x".data 1 none) "x x x".data 3 5 [.str "x"] 1 :=
    .step 3 5 5 (.str "x") [] [] 0 ⟨by simp, 3, rfl⟩ (by omega) d5
  have d1 : RepsOne (.word "x".data "x".data 1 none) "x x x".data 1 5
      [.str "x", .str "x"] 2 :=
    .step 1 3 5 (.str "x") [] [.str "x"] 1 ⟨by simp, 3, rfl⟩ (by omega) d3
  have d0 : RepsOne (.word "x".data "x".data 1 none) "x x x".data 0 5
      [.str "x", .str "x", .str "x"] 3 :=
    .step 0 1 5 (.str "x") [] [.str "x", .str "x"] 2 ⟨by simp, 3, rfl⟩ (by omega) d1
  have ch1 : RepsOne (pairM (.word "x".data "x".data 1 none) (.literal ",")) "x,x".data
      1 3 [.str "x"] 1 :=
    .step 1 3 3 (.str "x") [] [] 0 ⟨by simp, 5, rfl⟩ (by omega)
      (.stop 3 3 "Expected ," ⟨by simp, 5, rfl⟩)
  exact ⟨claim_C6.1 (.word "x".data "x".data 1 none) "x x x".data 0 5
      [.str "x", .str "x", .str "x"] 3 d0 (by omega),
    claim_C6.2 (.word "x".data "x".data 1 none) (.literal ",") "x,x".data 0 1 3
      (.str "x") [] [.str "x"] 1 ⟨by simp, 3, rfl⟩ ch1⟩

end PyParse
